import Mathlib

/-!
Verification of the well-plan construction and optimization engine
(`wellplan` package: builder, team manager, cost function, plan data model,
simulated-annealing optimizer).

Embedding conventions, used throughout:

* Calendar instants (`datetime`) are modelled as rational numbers of days
  since `datetime.min`, with a uniform 365-day year: `yearOf d = ⌊d / 365⌋`
  and January 1 of year `y` is day `365 * y`.  This preserves every
  operation the code performs on dates: ordering, `max`, adding a
  `timedelta`, extracting `.year`, and constructing `datetime(y, 1, 1)`.
* `timedelta` values are rationals (days); `timedelta.days` is `⌊·⌋`.
* Python floats are rationals in the scheduling core and real numbers in
  the NPV cost model and the distance-based movement model (which use
  `exp`-style powers and `sqrt`).
* Python dicts with string keys (`context.metadata`) are functions
  `String → Option value`; `dict.get(k, d)` is `(m k).getD d`.
* Exceptions are modelled with `Except PyErr`.
-/

namespace WellPlan

/-- Python runtime errors raised by the code under verification. -/
inductive PyErr where
  | typeError
  | valueError
  | indexError
  | frozenInstanceError
deriving DecidableEq, Repr

/-- The enumerated work kinds of `core/task.py` (`Task`): `DRILLING` and `GTM`. -/
inductive Task where
  | DRILLING
  | GTM
deriving DecidableEq, Repr

/-- Fixed task durations from `core/task.py`: 30 days for drilling, 20 for GTM. -/
def Task.duration : Task → ℚ
  | .DRILLING => 30
  | .GTM => 20

/-- Metadata key written by `_count_teams_on_cluster`:
`f"team_count_{task.name.lower()}"`. -/
def Task.teamCountKey : Task → String
  | .DRILLING => "team_count_drilling"
  | .GTM => "team_count_gtm"

/-- A team (`core/team.py`): an identity plus the set of tasks it can perform.
The UUID identity is modelled as a natural number. -/
structure Team where
  id : ℕ
  supportedTasks : List Task
deriving DecidableEq, Repr

/-- `core/well.py` `Well`.  The composite `well_type` code is modelled already
parsed into its task list (`Well.tasks` splits the code on `+` and maps each
segment through `Task.from_code`); dates are day counts (see file header). -/
structure Well where
  name : String
  cluster : String
  tasks : List Task
  oil_rate : ℚ
  liq_rate : ℚ
  length : ℚ
  init_entry_date : Option ℚ
  readiness_date : Option ℚ
  depend_from_cluster : Option String
deriving DecidableEq, Repr

/-- `core/plan.py` `ScheduleEntry` (a frozen dataclass). -/
structure ScheduleEntry where
  task : Task
  team : Team
  start : ℚ
  end_ : ℚ
  travel_time : ℚ
deriving DecidableEq, Repr

/-- `core/plan.py` `WellPlanContext`, polymorphic in the money/production
value type `M` (rationals in the scheduling core, reals in the NPV model). -/
structure WellPlanContext (M : Type) where
  well : Well
  start : ℚ
  end_ : ℚ
  entries : List ScheduleEntry
  cost : Option M
  oil_prod_profile : List M
  liq_prod_profile : List M
  metadata : String → Option M

/-- `WellPlanContext.get_next_available_date`: the max entry end, or the
context's start when there are no entries. -/
def WellPlanContext.get_next_available_date (ctx : WellPlanContext M) : ℚ :=
  match (ctx.entries.map ScheduleEntry.end_).max? with
  | some m => m
  | none => ctx.start

/-- `WellPlanContext.get_entry_by_task`: first entry whose task matches. -/
def WellPlanContext.get_entry_by_task (ctx : WellPlanContext M) (task : Task) :
    Option ScheduleEntry :=
  ctx.entries.find? (fun e => e.task = task)

/-- `core/plan.py` `Plan`: an id plus the ordered list of accepted contexts. -/
structure Plan (M : Type) where
  id : ℕ
  well_plans : List (WellPlanContext M)

/-- `Plan.add_context`: append-only. -/
def Plan.add_context (p : Plan M) (ctx : WellPlanContext M) : Plan M :=
  { p with well_plans := p.well_plans ++ [ctx] }

/-- `Plan.total_profit`: `sum(wp.cost for wp in self.well_plans if wp.cost is not None)`. -/
def Plan.total_profit [AddCommMonoid M] (p : Plan M) : M :=
  (p.well_plans.filterMap (fun wp => wp.cost)).sum

/-! ### Team movement (`services/team_manager.py`) -/

/-- `SimpleTeamMovement.get_move_days`: 1 day within a cluster, 14 otherwise. -/
def SimpleTeamMovement.get_move_days (from_cluster : Option String)
    (to_cluster : String) : ℚ :=
  if from_cluster = some to_cluster then 1 else 14

/-- `Coordinate` with its Euclidean 3D distance. -/
structure Coordinate where
  x : ℝ
  y : ℝ
  z : ℝ

/-- `Coordinate.distance_to`. -/
noncomputable def Coordinate.distance_to (a b : Coordinate) : ℝ :=
  Real.sqrt ((a.x - b.x) ^ 2 + (a.y - b.y) ^ 2 + (a.z - b.z) ^ 2)

/-- `DistanceTeamMovement`: cluster coordinates plus the tuning constants
(defaults in the source: 90 / 15 / 1). -/
structure DistanceTeamMovement where
  cluster_coordinates : List (String × Coordinate)
  min_days_between_clusters : ℝ
  team_speed_kmh : ℝ
  same_cluster_move_days : ℝ

/-- `DistanceTeamMovement.get_move_days`: the same-cluster constant within a
cluster; the minimum for an unknown origin or missing coordinates; otherwise
`min_days_between_clusters + distance / (speed * 1000) / 24`. -/
noncomputable def DistanceTeamMovement.get_move_days (m : DistanceTeamMovement)
    (from_cluster : Option String) (to_cluster : String) : ℝ :=
  if from_cluster = some to_cluster then m.same_cluster_move_days
  else
    match from_cluster with
    | none => m.min_days_between_clusters
    | some fc =>
      match List.lookup fc m.cluster_coordinates,
            List.lookup to_cluster m.cluster_coordinates with
      | some a, some b =>
        m.min_days_between_clusters +
          (a.distance_to b / (m.team_speed_kmh * 1000)) / 24
      | _, _ => m.min_days_between_clusters

/-! ### Calendar helpers (see the file header for the date model) -/

/-- `.year` of a day count: with the uniform 365-day year, `⌊d / 365⌋`. -/
def yearOf (d : ℚ) : ℤ := ⌊d / 365⌋

/-- `datetime(y, 1, 1)` as a day count. -/
def jan1 (y : ℤ) : ℚ := 365 * y

/-! ### Team manager (`services/team_manager.py`) -/

/-- `TeamState`: mutable per-team availability.  `datetime.min` is day 0. -/
structure TeamState where
  available_from : ℚ
  current_cluster : Option String
deriving DecidableEq, Repr

/-- `TaskLimits: dict[Task, int]` as an association list. -/
abbrev TaskLimits := List (Task × ℕ)

/-- `YearlyLimits: dict[int, TaskLimits]` as an association list. -/
abbrev YearlyLimits := List (ℤ × TaskLimits)

/-- `_usage_counts: dict[int, dict[Task, set[Team]]]` as a total function
(the defaultdict default is the empty set). -/
abbrev UsageCounts := ℤ → Task → Finset Team

/-- The limit configured for a (year, task) pair, if any:
`limits.get(year)` followed by `.get(task)`. -/
def limitFor (limits : YearlyLimits) (year : ℤ) (task : Task) : Option ℕ :=
  (List.lookup year limits).bind (fun yl => List.lookup task yl)

/-- `BaseTeamManager._check_limit`: `True` when no limits are configured,
the year or the task has no limit, or the team is already counted; otherwise
the distinct-team count must still be below the limit. -/
def check_limit (limits : YearlyLimits) (usage : UsageCounts) (task : Task)
    (year : ℤ) (team : Team) : Bool :=
  if limits.isEmpty then true
  else
    match List.lookup year limits with
    | none => true
    | some year_limits =>
      if year_limits.isEmpty then true
      else
        match List.lookup task year_limits with
        | none => true
        | some max_count =>
          if team ∈ usage year task then true
          else decide ((usage year task).card < max_count)

/-- Add a team to the `(year, task)` usage set (Python `set.add` on the
defaultdict cell). -/
def UsageCounts.record (u : UsageCounts) (year : ℤ) (task : Task) (team : Team) :
    UsageCounts :=
  fun y t => if y = year ∧ t = task then insert team (u y t) else u y t

/-- One iteration of `_record_usage`'s `for year_to_record in relevant_years`
loop: skip a year without a limit for the task, else add the team when
`_check_limit` passes. -/
def record_usage_step (limits : YearlyLimits) (task : Task) (team : Team)
    (u : UsageCounts) (year_to_record : ℤ) : UsageCounts :=
  let year_limits := (List.lookup year_to_record limits).getD []
  match List.lookup task year_limits with
  | none => u
  | some _ =>
    if check_limit limits u task year_to_record team then
      u.record year_to_record task team
    else u

/-- `BaseTeamManager._record_usage`: for every limit-configured year at or
after the assignment year (in sorted order), add the team to that year's
usage set for the task when `_check_limit` passes. -/
def record_usage (limits : YearlyLimits) (usage : UsageCounts) (task : Task)
    (assignment_year : ℤ) (team : Team) : UsageCounts :=
  let relevant_years :=
    ((limits.map Prod.fst).filter (fun y => decide (assignment_year ≤ y))).mergeSort
      (fun a b => decide (a ≤ b))
  relevant_years.foldl (record_usage_step limits task team) usage

/-- `TeamPool._task_teams_map` as an association list from task to teams. -/
abbrev TeamPoolMap := List (Task × List Team)

/-- `TeamPool.get_teams_for_task`. -/
def poolGetTeamsForTask (pool : TeamPoolMap) (t : Task) : List Team :=
  (List.lookup t pool).getD []

/-- `TeamPool.supported_tasks` (the map's key set). -/
def poolSupportedTasks (pool : TeamPoolMap) : List Task := pool.map Prod.fst

/-- `TeamPool.teams`: the deduplicated set of all pooled teams. -/
def poolTeams (pool : TeamPoolMap) : List Team :=
  ((pool.map Prod.snd).flatten).dedup

/-- `BaseTeamManager`: pool, movement strategy, usage bookkeeping and per-team
states.  `states` is total, defaulting to the initial `TeamState` that
`__init__` creates for every pooled team. -/
structure BaseTeamManager where
  team_pool : TeamPoolMap
  movement : Option String → String → ℚ
  enable_team_count : Bool
  states : Team → TeamState
  usage_counts : UsageCounts
  limits : YearlyLimits

/-- A freshly constructed manager (`BaseTeamManager.__init__`). -/
def BaseTeamManager.init (pool : TeamPoolMap) (movement : Option String → String → ℚ)
    (enable_team_count : Bool) (limits : YearlyLimits) : BaseTeamManager :=
  { team_pool := pool
    movement := movement
    enable_team_count := enable_team_count
    states := fun _ => ⟨0, none⟩
    usage_counts := fun _ _ => ∅
    limits := limits }

/-- `TeamManager.assign`: for each entry, the performing team becomes available
from the entry's end on the well's cluster, and usage is recorded against the
entry's start year. -/
def BaseTeamManager.assign (mgr : BaseTeamManager) (ctx : WellPlanContext M) :
    BaseTeamManager :=
  ctx.entries.foldl
    (fun m e =>
      { m with
        states := fun tm =>
          if tm = e.team then ⟨e.end_, some ctx.well.cluster⟩ else m.states tm
        usage_counts := record_usage m.limits m.usage_counts e.task (yearOf e.start) e.team })
    mgr

/-- The body of `TeamManager._find_available_start_time`'s `while True` loop,
with explicit fuel: accept the current instant if the quota check passes,
else retry from January 1 of the next year.  The Python loop has no bound;
`find_start_never_fails` below shows the chosen fuel always suffices, so
`none` (fuel exhaustion) mirrors an unreachable state. -/
def find_start_aux (limits : YearlyLimits) (usage : UsageCounts) (task : Task)
    (team : Team) : ℕ → ℚ → Option ℚ
  | 0, _ => none
  | fuel + 1, current_start =>
    let current_year := yearOf current_start
    if check_limit limits usage task current_year team then some current_start
    else find_start_aux limits usage task team fuel (jan1 (current_year + 1))

/-- The largest limit-configured year (0 when there are none); beyond it every
quota check passes. -/
def limitsMaxYear (limits : YearlyLimits) : ℤ :=
  (limits.map Prod.fst).foldl max 0

/-- `TeamManager._find_available_start_time`: start from
`max(team availability + travel, context's next available date)` and roll
forward year by year until the quota check passes. -/
def find_available_start_time (mgr : BaseTeamManager) (task : Task) (team : Team)
    (travel_time : ℚ) (ctx : WellPlanContext ℚ) : Option ℚ :=
  let base_start :=
    max ((mgr.states team).available_from + travel_time) ctx.get_next_available_date
  find_start_aux mgr.limits mgr.usage_counts task team
    ((limitsMaxYear mgr.limits + 2 - yearOf base_start).toNat + 1) base_start

/-- A `(start_time, end_time, team, travel_time)` candidate tuple. -/
abbrev TaskCandidate := ℚ × ℚ × Team × ℚ

/-- The candidate list built by `TeamManager.get_assignments` for one task:
one tuple per team capable of the task whose start search succeeds. -/
def task_candidates (mgr : BaseTeamManager) (well : Well) (ctx : WellPlanContext ℚ)
    (task : Task) : List TaskCandidate :=
  (poolGetTeamsForTask mgr.team_pool task).filterMap (fun team =>
    let travel_time := mgr.movement (mgr.states team).current_cluster well.cluster
    (find_available_start_time mgr task team travel_time ctx).map
      (fun start_time => (start_time, start_time + task.duration, team, travel_time)))

/-- Python's `min(candidates, key=lambda x: x[1])`: the first tuple with the
smallest end time. -/
def min_by_end (c : TaskCandidate) (cs : List TaskCandidate) : TaskCandidate :=
  cs.foldl (fun best x => if x.2.1 < best.2.1 then x else best) c

/-- `BaseTeamManager._count_teams_on_cluster_by_task`: pooled teams currently
on the cluster, able to perform the task, other than the given team. -/
def count_teams_on_cluster_by_task (mgr : BaseTeamManager) (cluster : String)
    (task : Task) (team : Team) : ℕ :=
  ((poolTeams mgr.team_pool).filter (fun tm =>
    decide ((mgr.states tm).current_cluster = some cluster) &&
      decide (task ∈ tm.supportedTasks) && decide (tm ≠ team))).length

/-- Overwrite one metadata key (Python `dict.__setitem__`). -/
def metaSet (m : String → Option M) (k : String) (v : M) : String → Option M :=
  fun k2 => if k2 = k then some v else m k2

/-- One iteration of the `for task in tasks` loop of
`TeamManager.get_assignments`: raise on an unsupported task, otherwise build
the per-team candidates, append the earliest-finishing one as a
`ScheduleEntry`, and (when enabled) record the competing-team count. -/
def process_task (mgr : BaseTeamManager) (ctx : WellPlanContext ℚ) (task : Task) :
    Except PyErr (WellPlanContext ℚ) :=
  if task ∉ poolSupportedTasks mgr.team_pool then .error .valueError
  else
    match task_candidates mgr ctx.well ctx task with
    | [] => .ok ctx
    | c :: cs =>
      let best := min_by_end c cs
      let entry : ScheduleEntry :=
        { task := task, team := best.2.2.1, start := best.1, end_ := best.2.1
          travel_time := best.2.2.2 }
      let ctx2 := { ctx with entries := ctx.entries ++ [entry] }
      .ok <|
        if mgr.enable_team_count then
          { ctx2 with
            metadata := metaSet ctx2.metadata task.teamCountKey
              ((count_teams_on_cluster_by_task mgr ctx.well.cluster task best.2.2.1 : ℕ) : ℚ) }
        else ctx2

/-- `TeamManager.get_assignments`: process each of the well's tasks in order.
Raises `ValueError` at the first task no pooled team supports. -/
def get_assignments (mgr : BaseTeamManager) (ctx : WellPlanContext ℚ) :
    Except PyErr (WellPlanContext ℚ) :=
  ctx.well.tasks.foldlM (process_task mgr) ctx

/-- A call against the manager, for stating state invariants over arbitrary
call sequences.  `get_assignments` only reads the usage bookkeeping (its
defaultdict accesses materialize at most empty sets); `assign` mutates it. -/
inductive ManagerOp where
  | assignOp (ctx : WellPlanContext ℚ)
  | getAssignmentsOp (ctx : WellPlanContext ℚ)

/-- Run one manager call. -/
def run_op (mgr : BaseTeamManager) : ManagerOp → BaseTeamManager
  | .assignOp ctx => mgr.assign ctx
  | .getAssignmentsOp _ => mgr

/-- Run a sequence of manager calls. -/
def run_ops (mgr : BaseTeamManager) (ops : List ManagerOp) : BaseTeamManager :=
  ops.foldl run_op mgr

/-! ### Randomness

The process-wide `random` module is modelled as a stream of draws threaded
through every stochastic function: `seq` yields arbitrary naturals, from
which unit-interval rationals and list indices are derived.  Theorems
quantify over every stream, so they cover every possible draw sequence. -/

/-- The pseudorandom source: an arbitrary stream of naturals plus a cursor. -/
structure Rand where
  seq : ℕ → ℕ
  pos : ℕ

/-- Draw one natural. -/
def Rand.nextNat (r : Rand) : ℕ × Rand :=
  (r.seq r.pos, { r with pos := r.pos + 1 })

/-- `random.random()`: one rational in `[0, 1)`. -/
def Rand.nextUnit (r : Rand) : ℚ × Rand :=
  (((r.seq r.pos % 1000 : ℕ) : ℚ) / 1000, { r with pos := r.pos + 1 })

/-- `random.choice`: `IndexError` on an empty sequence, else an element at a
drawn index. -/
def pyChoice (l : List α) (r : Rand) : Except PyErr (α × Rand) :=
  match l with
  | [] => .error .indexError
  | x :: xs =>
    let k := r.nextNat
    .ok ((x :: xs).getD (k.1 % (x :: xs).length) x, k.2)

/-! ### Python `min`/`max` semantics -/

/-- Python's `<` on optional datetimes: comparing `None` with anything raises
`TypeError`. -/
def optLt (a b : Option ℚ) : Except PyErr Bool :=
  match a, b with
  | some x, some y => .ok (decide (x < y))
  | _, _ => .error .typeError

/-- The scan of Python `min(iterable, key=...)`: each element is compared
against the running best and replaces it on a strictly smaller key. -/
def pyMinOptAux (key : α → Option ℚ) : α → List α → Except PyErr α
  | best, [] => .ok best
  | best, x :: xs => do
    let lt ← optLt (key x) (key best)
    pyMinOptAux key (if lt then x else best) xs

/-- Python `min` over optional-datetime keys: `ValueError` on an empty
iterable, first minimal element otherwise, `TypeError` as soon as a `None`
key is compared. -/
def pyMinOpt (key : α → Option ℚ) : List α → Except PyErr α
  | [] => .error .valueError
  | x :: xs => pyMinOptAux key x xs

/-- Python's `max` over already-computed scores: the first maximal pair. -/
def max_by_score (c : β × ℚ) (cs : List (β × ℚ)) : β × ℚ :=
  cs.foldl (fun best x => if x.2 > best.2 then x else best) c

/-! ### Plan builder (`builder.py`, the second `PlanBuilder` class)

The builder's injected collaborators keep their protocol shape:

* the infrastructure provider is a ready-date function;
* the production profiler and the cost function mutate only the production
  profiles resp. cost/metadata of a context, so they are modelled as
  functions returning those fields' new values;
* the team manager (`BaseTeamManager` protocol) appends schedule entries and
  writes metadata on a fresh context while updating its own state `σ`;
* the risk strategy (when present) rewrites the oil profile and metadata,
  `define_risk` also updating its own state `ρ`;
* the constraint manager is its sorted bound-year list (`time_bounds`) plus
  the combined `is_violated` test of the injected constraints;
* `math.exp` is the parameter `expFn` (every theorem holds for all of them).
-/

/-- Constraint manager model: sorted bound years plus the violation test. -/
structure ConstraintManagerModel where
  time_bounds : List ℤ
  is_violated : Plan ℚ → WellPlanContext ℚ → Bool

/-- `ConstraintManager.get_period_end`: the first bound year strictly after
the given year, if any. -/
def ConstraintManagerModel.get_period_end (cm : ConstraintManagerModel)
    (current_year : ℤ) : Option ℤ :=
  cm.time_bounds.find? (fun year => decide (current_year < year))

/-- The `BaseTeamManager` protocol as the builder sees it, over internal
manager state `σ`. -/
structure ManagerModel (σ : Type) where
  get_assignments : σ → WellPlanContext ℚ → List ScheduleEntry × (String → Option ℚ) × σ
  assign : σ → WellPlanContext ℚ → σ

/-- The `RiskStrategy` protocol over internal strategy state `ρ`. -/
structure RiskModel (ρ : Type) where
  apply_risk : ρ → WellPlanContext ℚ → List ℚ × (String → Option ℚ)
  define_risk : ρ → WellPlanContext ℚ → (List ℚ × (String → Option ℚ)) × ρ

/-- `PlanBuilder.__init__`: plan window, injected services, constraint
manager, and the drill-team-penalty switch. -/
structure PlanBuilder (σ ρ : Type) where
  start : ℚ
  end_ : ℚ
  infra_get_ready_date : Well → ℚ
  profiler : WellPlanContext ℚ → List ℚ × List ℚ
  cost_function : WellPlanContext ℚ → ℚ × (String → Option ℚ)
  constraints : ConstraintManagerModel
  use_drill_team_penalty : Bool

/-- `PlanBuilder._is_cluster_finished`: vacuously true without a dependency,
else no remaining well may sit on the depended-on cluster. -/
def is_cluster_finished (remaining : List Well) : Option String → Bool
  | none => true
  | some cluster => decide (∀ w ∈ remaining, w.cluster ≠ cluster)

/-- `PlanBuilder._build_context`: `None` when the cluster dependency is
unfinished; otherwise a fresh context gets its team assignments, is dropped
when it ends after the plan or received no entries, and is profiled. -/
def build_context (B : PlanBuilder σ ρ) (mm : ManagerModel σ) (remaining : List Well)
    (mgr : σ) (well : Well) (start : ℚ) : Option (WellPlanContext ℚ) × σ :=
  if is_cluster_finished remaining well.depend_from_cluster = false then (none, mgr)
  else
    let ctx0 : WellPlanContext ℚ :=
      { well := well, start := max (B.infra_get_ready_date well) start, end_ := B.end_
        entries := [], cost := none, oil_prod_profile := [], liq_prod_profile := []
        metadata := fun _ => none }
    let res := mm.get_assignments mgr ctx0
    let ctx1 := { ctx0 with entries := res.1, metadata := res.2.1 }
    if ctx1.get_next_available_date > B.end_ ∨ ctx1.entries.isEmpty then (none, res.2.2)
    else
      let prof := B.profiler ctx1
      (some { ctx1 with oil_prod_profile := prof.1, liq_prod_profile := prof.2 }, res.2.2)

/-- One well of the `_build_contexts` comprehension: append the context when
the build succeeds, keeping the threaded manager state either way. -/
def build_contexts_step (B : PlanBuilder σ ρ) (mm : ManagerModel σ)
    (remaining : List Well) (start : ℚ) (acc : List (WellPlanContext ℚ) × σ)
    (well : Well) : List (WellPlanContext ℚ) × σ :=
  let res := build_context B mm remaining acc.2 well start
  match res.1 with
  | some ctx => (acc.1 ++ [ctx], res.2)
  | none => (acc.1, res.2)

/-- `PlanBuilder._build_contexts`: one context per remaining well whose build
succeeds, threading the manager state through the whole pass. -/
def build_contexts (B : PlanBuilder σ ρ) (mm : ManagerModel σ) (remaining : List Well)
    (mgr : σ) (start : ℚ) : List (WellPlanContext ℚ) × σ :=
  remaining.foldl (build_contexts_step B mm remaining start) ([], mgr)

/-- `datetime.min` (day 0 of the model). -/
def datetime_min : ℚ := 0

/-- One step of the `earliest_per_cluster` dict build in
`_filter_candidates`: keyed by cluster, insertion-ordered, the stored
candidate replaced in place by a strictly earlier entry date. -/
def updateEarliest (acc : List (String × WellPlanContext ℚ)) (c : WellPlanContext ℚ) :
    List (String × WellPlanContext ℚ) :=
  let cluster := c.well.cluster
  let candidate_date := c.well.init_entry_date.getD datetime_min
  match List.lookup cluster acc with
  | none => acc ++ [(cluster, c)]
  | some existing =>
    if existing.well.init_entry_date.getD datetime_min > candidate_date then
      acc.map (fun p => if p.1 = cluster then (cluster, c) else p)
    else acc

/-- The cluster-ordering pass: keep only the earliest-entry-date candidate of
each cluster, in dict insertion order. -/
def cluster_ordered_filter (cs : List (WellPlanContext ℚ)) : List (WellPlanContext ℚ) :=
  (cs.foldl updateEarliest []).map Prod.snd

/-- Apply the injected cost function: sets `cost` and `metadata`. -/
def apply_cost (B : PlanBuilder σ ρ) (c : WellPlanContext ℚ) : WellPlanContext ℚ :=
  { c with cost := some (B.cost_function c).1, metadata := (B.cost_function c).2 }

/-- `RiskStrategy.apply_risk`: rewrites the oil profile and metadata. -/
def apply_risk_ctx (R : RiskModel ρ) (rs : ρ) (c : WellPlanContext ℚ) :
    WellPlanContext ℚ :=
  { c with oil_prod_profile := (R.apply_risk rs c).1, metadata := (R.apply_risk rs c).2 }

/-- `RiskStrategy.define_risk`: as `apply_risk`, also updating its state. -/
def define_risk_ctx (R : RiskModel ρ) (rs : ρ) (c : WellPlanContext ℚ) :
    WellPlanContext ℚ × ρ :=
  ({ c with oil_prod_profile := (R.define_risk rs c).1.1
            metadata := (R.define_risk rs c).1.2 }, (R.define_risk rs c).2)

/-- `PlanBuilder._filter_candidates`: cluster-ordering pass, risk application,
cost computation, then constraint filtering. -/
def filter_candidates (B : PlanBuilder σ ρ) (R : Option (RiskModel ρ)) (rs : ρ)
    (cands : List (WellPlanContext ℚ)) (plan : Plan ℚ) (cluster_ordered : Bool) :
    List (WellPlanContext ℚ) :=
  let cs1 := if cluster_ordered && !cands.isEmpty then cluster_ordered_filter cands else cands
  let cs2 :=
    match R with
    | some risk => cs1.map (apply_risk_ctx risk rs)
    | none => cs1
  let cs3 := cs2.map (apply_cost B)
  cs3.filter (fun c => !(B.constraints.is_violated plan c))

/-- `PlanBuilder._calculate_candidate_score`: `(cost − penalty)` scaled by a
uniform(0.95, 1.05) jitter and a time-decay factor floored at 0.8. -/
def calculate_candidate_score (B : PlanBuilder σ ρ) (c : WellPlanContext ℚ)
    (r : Rand) : ℚ × Rand :=
  let base_score := c.cost.getD 0
  let penalty :=
    if B.use_drill_team_penalty then (c.metadata "drill_team_penalty").getD 0 else 0
  let u := r.nextUnit
  let random_factor := 95 / 100 + u.1 * (1 / 10)
  let time_factor :=
    match c.well.init_entry_date with
    | some d => max (4 / 5) (1 - ((⌊d - B.start⌋ : ℚ) / 365))
    | none => 1
  ((base_score - penalty) * random_factor * time_factor, u.2)

/-- `PlanBuilder._get_neighbor_candidate`: 70% a uniform pick, else a pick
among candidates within 20% of the current cost (falling back to all). -/
def get_neighbor_candidate (valid : List (WellPlanContext ℚ))
    (current : WellPlanContext ℚ) (r : Rand) :
    Except PyErr (WellPlanContext ℚ × Rand) :=
  let p := r.nextUnit
  if p.1 < 7 / 10 then pyChoice valid p.2
  else
    let current_cost := current.cost.getD 0
    let cost_range := current_cost * (2 / 10)
    let similar := valid.filter (fun c => decide (|c.cost.getD 0 - current_cost| ≤ cost_range))
    if similar.isEmpty then pyChoice valid p.2 else pyChoice similar p.2

/-- `PlanBuilder._accept_solution` (Metropolis criterion); `math.exp` is the
`expFn` parameter. -/
def accept_solution (expFn : ℚ → ℚ) (current_score new_score temp : ℚ) (r : Rand) :
    Bool × Rand :=
  if new_score > current_score then (true, r)
  else
    let delta := new_score - current_score
    if temp > 0 then
      let probability := expFn (delta / temp)
      let p := r.nextUnit
      (decide (p.1 < probability), p.2)
    else (false, r)

/-- Score one candidate, consuming one jitter draw (the key call of Python's
`max(..., key=score)` on one element). -/
def score_all_step (B : PlanBuilder σ ρ) (acc : List (WellPlanContext ℚ × ℚ) × Rand)
    (c : WellPlanContext ℚ) : List (WellPlanContext ℚ × ℚ) × Rand :=
  let p := calculate_candidate_score B c acc.2
  (acc.1 ++ [(c, p.1)], p.2)

/-- Score every candidate in order (Python `max(..., key=score)` calls the
key once per element). -/
def score_all (B : PlanBuilder σ ρ) (cs : List (WellPlanContext ℚ)) (r : Rand) :
    List (WellPlanContext ℚ × ℚ) × Rand :=
  cs.foldl (score_all_step B) ([], r)

/-- The running state of `_simulated_annealing_selection`'s cooling loop. -/
structure SAState where
  current : WellPlanContext ℚ
  current_score : ℚ
  best : WellPlanContext ℚ
  best_score : ℚ

/-- The inner `for _ in range(iterations_per_temp)` loop. -/
def sa_inner (B : PlanBuilder σ ρ) (expFn : ℚ → ℚ) (valid : List (WellPlanContext ℚ))
    (temp : ℚ) : ℕ → SAState → Rand → Except PyErr (SAState × Rand)
  | 0, st, r => .ok (st, r)
  | n + 1, st, r => do
    let (neighbor, r1) ← get_neighbor_candidate valid st.current r
    let (nscore, r2) := calculate_candidate_score B neighbor r1
    let (acc, r3) := accept_solution expFn st.current_score nscore temp r2
    let st2 :=
      if acc then
        let stc := { st with current := neighbor, current_score := nscore }
        if nscore > st.best_score then { stc with best := neighbor, best_score := nscore }
        else stc
      else st
    sa_inner B expFn valid temp n st2 r3

/-- The outer `while temp > min_temp` cooling loop (temp 1000, rate 0.95,
floor 1).  The fuel only bounds the recursion; `1000 · 0.95^k` falls below 1
after 135 halvings, far inside the fuel every caller passes. -/
def sa_outer (B : PlanBuilder σ ρ) (expFn : ℚ → ℚ) (valid : List (WellPlanContext ℚ)) :
    ℕ → ℚ → SAState → Rand → Except PyErr (SAState × Rand)
  | 0, _, st, r => .ok (st, r)
  | fuel + 1, temp, st, r =>
    if temp > 1 then do
      let (st2, r2) ← sa_inner B expFn valid temp 10 st r
      sa_outer B expFn valid fuel (temp * (95 / 100)) st2 r2
    else .ok (st, r)

/-- `PlanBuilder._simulated_annealing_selection`. -/
def simulated_annealing_selection (B : PlanBuilder σ ρ) (expFn : ℚ → ℚ)
    (candidates : List (WellPlanContext ℚ)) (r : Rand) :
    Except PyErr (WellPlanContext ℚ × Rand) :=
  let valid := candidates.filter (fun c => c.cost.isSome)
  match valid, candidates with
  | [], [] => .error .indexError
  | [], c0 :: _ => .ok (c0, r)
  | v0 :: vs, _ =>
    if (v0 :: vs).length ≤ 3 then
      let p := r.nextUnit
      if p.1 < 6 / 10 then
        let sc := score_all B (v0 :: vs) p.2
        match sc.1 with
        | [] => .error .valueError
        | s0 :: ss => .ok ((max_by_score s0 ss).1, sc.2)
      else pyChoice (v0 :: vs) p.2
    else do
      let c0 ← pyChoice (v0 :: vs) r
      let s0 := calculate_candidate_score B c0.1 c0.2
      let st ← sa_outer B expFn (v0 :: vs) 1000 1000
        { current := c0.1, current_score := s0.1, best := c0.1, best_score := s0.1 } s0.2
      .ok (st.1.best, st.2)

/-- `PlanBuilder._select_best_candidate`: keep-order mode takes the minimum
by `init_entry_date` (Python `min` semantics, including its `TypeError` on
`None` keys); otherwise the per-step simulated annealing runs. -/
def select_best_candidate (B : PlanBuilder σ ρ) (expFn : ℚ → ℚ)
    (candidates : List (WellPlanContext ℚ)) (keep_order : Bool) (r : Rand) :
    Except PyErr (WellPlanContext ℚ × Rand) :=
  if keep_order then
    (pyMinOpt (fun c => c.well.init_entry_date) candidates).map (fun c => (c, r))
  else if candidates.isEmpty then .error .valueError
  else simulated_annealing_selection B expFn candidates r

/-- Python `list.remove`: drop the first equal element.  Inside `compile` the
removed well always comes from the pool, so the raising case is unreachable
and the function is total here. -/
def removeFirstWell : List Well → Well → List Well
  | [], _ => []
  | w :: ws, x => if w = x then ws else w :: removeFirstWell ws x

/-- The loop state of `PlanBuilder.compile`: the remaining pool, the
accumulated plan, the current period start, and the threaded collaborator
states. -/
structure CompileState (σ ρ : Type) where
  remaining : List Well
  plan : Plan ℚ
  current_start : ℚ
  mgr : σ
  risk_state : ρ
  rand : Rand

/-- The `while self.remaining_wells and current_start < self.end` loop of
`PlanBuilder.compile`, one fuel unit per iteration.  The Python loop always
terminates (each iteration removes a well or strictly advances the year), so
theorems quantify over the fuel; exhaustion returns the state reached. -/
def compile_loop (B : PlanBuilder σ ρ) (mm : ManagerModel σ) (R : Option (RiskModel ρ))
    (keep_order cluster_ordered : Bool) (expFn : ℚ → ℚ) :
    ℕ → CompileState σ ρ → Except PyErr (CompileState σ ρ)
  | 0, s => .ok s
  | fuel + 1, s =>
    if s.remaining ≠ [] ∧ s.current_start < B.end_ then
      let built := build_contexts B mm s.remaining s.mgr s.current_start
      if built.1.isEmpty then .ok { s with mgr := built.2 }
      else
        let filtered := filter_candidates B R s.risk_state built.1 s.plan cluster_ordered
        if filtered.isEmpty then
          let next_year :=
            (B.constraints.get_period_end (yearOf s.current_start)).getD
              (yearOf s.current_start + 1)
          compile_loop B mm R keep_order cluster_ordered expFn fuel
            { s with current_start := jan1 next_year, mgr := built.2 }
        else do
          let (best, r2) ← select_best_candidate B expFn filtered keep_order s.rand
          let mgr3 := mm.assign built.2 best
          let remaining2 := removeFirstWell s.remaining best.well
          let br :=
            match R with
            | some risk =>
              (apply_cost B (define_risk_ctx risk s.risk_state best).1,
                (define_risk_ctx risk s.risk_state best).2)
            | none => (best, s.risk_state)
          compile_loop B mm R keep_order cluster_ordered expFn fuel
            { remaining := remaining2, plan := s.plan.add_context br.1
              current_start := s.current_start, mgr := mgr3, risk_state := br.2, rand := r2 }
    else .ok s

/-- `PlanBuilder.compile`: run the loop from a fresh plan and the copied well
list. -/
def compile (B : PlanBuilder σ ρ) (mm : ManagerModel σ) (R : Option (RiskModel ρ))
    (wells : List Well) (mgr : σ) (rs : ρ) (rand : Rand)
    (keep_order cluster_ordered : Bool) (expFn : ℚ → ℚ) (fuel : ℕ) :
    Except PyErr (CompileState σ ρ) :=
  compile_loop B mm R keep_order cluster_ordered expFn fuel
    { remaining := wells, plan := { id := 0, well_plans := [] }, current_start := B.start
      mgr := mgr, risk_state := rs, rand := rand }

/-- Forget the random stream of a compile state (for comparing two runs that
differ only in their random draws). -/
def stripRand (s : CompileState σ ρ) : List Well × Plan ℚ × ℚ × σ × ρ :=
  (s.remaining, s.plan, s.current_start, s.mgr, s.risk_state)

/-! ### Whole-plan simulated-annealing optimizer (`services/optimization.py`)

`ScheduleEntry` is declared `@dataclass(slots=True, frozen=True)` in
`core/plan.py`; assigning to a field of a frozen (pydantic) dataclass
instance raises at runtime.  The three `setEntry…` operations below model
exactly those attribute assignments (`entry.start += …`, `entry.end += …`,
`entry.team = …`) performed by `SimulatedAnnealingPlanner._get_neighbor`. -/

/-- `entry.start = v` on the frozen `ScheduleEntry`: raises. -/
def setEntryStart (_e : ScheduleEntry) (_v : ℚ) : Except PyErr ScheduleEntry :=
  .error .frozenInstanceError

/-- `entry.end = v` on the frozen `ScheduleEntry`: raises. -/
def setEntryEnd (_e : ScheduleEntry) (_v : ℚ) : Except PyErr ScheduleEntry :=
  .error .frozenInstanceError

/-- `entry.team = t` on the frozen `ScheduleEntry`: raises. -/
def setEntryTeam (_e : ScheduleEntry) (_t : Team) : Except PyErr ScheduleEntry :=
  .error .frozenInstanceError

/-- The `for entry in …: entry.start += δ; entry.end += δ` loop of the
`shift_well` mutation. -/
def shift_well_entries (entries : List ScheduleEntry) (d : ℚ) :
    Except PyErr (List ScheduleEntry) :=
  entries.mapM (fun e => do
    let e1 ← setEntryStart e (e.start + d)
    setEntryEnd e1 (e.end_ + d))

/-- `random.randint(0, n - 1)`: `ValueError` when the range is empty
(`n = 0`), else a drawn index below `n`. -/
def pyRandIndex (n : ℕ) (r : Rand) : Except PyErr (ℕ × Rand) :=
  if n = 0 then .error .valueError
  else
    let (k, r2) := r.nextNat
    .ok (k % n, r2)

/-- Exchange two list positions (`lst[i], lst[j] = lst[j], lst[i]`). -/
def swapAt (l : List α) (i j : ℕ) : List α :=
  match l.get? i, l.get? j with
  | some a, some b => (l.set i b).set j a
  | _, _ => l

/-- `SimulatedAnnealingPlanner._get_neighbor`: copy the plan, draw one of the
three mutations uniformly (`random.choice` over the three names: 0 = swap,
1 = shift, 2 = reassign), apply it, then re-commit every context through
`manager.assign`. -/
def sa_get_neighbor (plan : Plan ℚ) (mgr : BaseTeamManager) (r : Rand) :
    Except PyErr (Plan ℚ × BaseTeamManager × Rand) := do
  let (mk, r1) := r.nextNat
  let mutation_type := mk % 3
  let (wps, rOut) ←
    (if mutation_type = 0 then
      if plan.well_plans.length > 1 then do
        -- random.sample(range(n), 2): two distinct drawn indices
        let (k1, r2) := r1.nextNat
        let n := plan.well_plans.length
        let idx1 := k1 % n
        let (k2, r3) := r2.nextNat
        let j0 := k2 % (n - 1)
        let idx2 := if idx1 ≤ j0 then j0 + 1 else j0
        pure (swapAt plan.well_plans idx1 idx2, r3)
      else pure (plan.well_plans, r1)
    else if mutation_type = 1 then do
      let (idx, r2) ← pyRandIndex plan.well_plans.length r1
      -- days_shift = random.randint(-30, 30)
      let (k, r3) := r2.nextNat
      let days_shift : ℚ := ((k % 61 : ℕ) : ℚ) - 30
      match plan.well_plans.get? idx with
      | none => pure (plan.well_plans, r3)
      | some wp => do
        let entries2 ← shift_well_entries wp.entries days_shift
        pure (plan.well_plans.set idx { wp with entries := entries2 }, r3)
    else do
      let (idx, r2) ← pyRandIndex plan.well_plans.length r1
      match plan.well_plans.get? idx with
      | none => pure (plan.well_plans, r2)
      | some wp =>
        if wp.entries.isEmpty then pure (plan.well_plans, r2)
        else do
          let (entry, r3) ← pyChoice wp.entries r2
          let (new_team, r4) ← pyChoice (poolGetTeamsForTask mgr.team_pool entry.task) r3
          let _ ← setEntryTeam entry new_team
          pure (plan.well_plans, r4))
  let mgr2 := wps.foldl (fun m wp => m.assign wp) mgr
  pure ({ plan with well_plans := wps }, mgr2, rOut)

/-! ### NPV cost function (`services/cost.py`)

Money is real-valued here; the capital- and operational-cost providers stay
the injected callables of the source (`CapitalCost` / `OperationalCost`
protocols). -/

/-- `NPV.__init__`. -/
structure NPV where
  oil_price_per_tone : ℝ
  project_start_date : ℚ
  capex_cost : Well → ℝ
  opex_cost : List ℝ → List ℝ → List ℝ
  discount_rate : ℝ
  travel_cost_per_day : ℝ

/-- `NPV._discount`: `cash_flow / (1 + rate) ** years` (real exponent). -/
noncomputable def NPV.discount (npv : NPV) (cash_flow : ℝ) (years : ℝ) : ℝ :=
  cash_flow / (1 + npv.discount_rate) ^ years

/-- `NPV.compute`: discounted monthly cash flows minus discounted capex minus
the drilling entry's travel cost; records `travel_cost`, `cash_flow`,
`capex` and `drill_team_penalty` in the metadata. -/
noncomputable def NPV.compute (npv : NPV) (ctx : WellPlanContext ℝ) :
    WellPlanContext ℝ :=
  let shift_years : ℝ :=
    ((⌊ctx.get_next_available_date - npv.project_start_date⌋ : ℤ) : ℝ) / 365
  let capex := npv.capex_cost ctx.well
  let monthly_opex :=
    npv.opex_cost ctx.oil_prod_profile
      (List.zipWith (fun liq oil => liq - oil) ctx.liq_prod_profile ctx.oil_prod_profile)
  let monthly_cash_flows :=
    List.zipWith (fun oil opex => oil * npv.oil_price_per_tone - opex)
      ctx.oil_prod_profile monthly_opex
  let discounted_cash_flows :=
    (monthly_cash_flows.enum.map
      (fun p => npv.discount p.2 (shift_years + (p.1 : ℝ) / 12))).sum
  let discounted_capex := npv.discount capex shift_years
  let entry := ctx.get_entry_by_task .DRILLING
  let travel_cost : ℝ :=
    match entry with
    | some e => ((⌊e.travel_time⌋ : ℤ) : ℝ) * npv.travel_cost_per_day
    | none => 0
  let drill_team_penalty := ((ctx.metadata "team_count_drilling").getD 0) * travel_cost
  { ctx with
    cost := some (discounted_cash_flows - discounted_capex - travel_cost)
    metadata :=
      metaSet (metaSet (metaSet (metaSet ctx.metadata "travel_cost" travel_cost)
        "cash_flow" discounted_cash_flows) "capex" discounted_capex)
        "drill_team_penalty" drill_team_penalty }

/-- The quota invariant: every configured (year, task) limit bounds the
distinct-team usage set. -/
def QuotaInv (limits : YearlyLimits) (u : UsageCounts) : Prop :=
  ∀ (y : ℤ) (t : Task) (m : ℕ), limitFor limits y t = some m → (u y t).card ≤ m

/-- The cluster-precedence invariant of a compile state: every planned well
with a cluster dependency has no remaining well on the depended-on cluster. -/
def ClusterPrecedenceInv (s : CompileState σ ρ) : Prop :=
  ∀ ctx ∈ s.plan.well_plans, ∀ C, ctx.well.depend_from_cluster = some C →
    ∀ w ∈ s.remaining, w.cluster ≠ C

/-! ### Concrete fixtures for witnesses and counterexamples -/

/-- A minimal concrete well. -/
def exampleWell : Well :=
  { name := "W1", cluster := "A", tasks := [Task.DRILLING], oil_rate := 1
    liq_rate := 2, length := 100, init_entry_date := some 10
    readiness_date := none, depend_from_cluster := none }

/-- A second concrete well on another cluster. -/
def exampleWell2 : Well :=
  { name := "W2", cluster := "B", tasks := [Task.DRILLING], oil_rate := 1
    liq_rate := 2, length := 100, init_entry_date := none
    readiness_date := none, depend_from_cluster := none }

/-- Cluster coordinates 3 600 000 m apart along the x axis. -/
noncomputable def cexCoordA : Coordinate := ⟨0, 0, 0⟩

/-- See `cexCoordA`. -/
noncomputable def cexCoordB : Coordinate := ⟨3600000, 0, 0⟩

/-- A distance movement whose A→B travel takes 10 days of driving, below the
90-day minimum: the source adds the two, a floor would return 90. -/
noncomputable def cexMovement : DistanceTeamMovement :=
  { cluster_coordinates := [("A", cexCoordA), ("B", cexCoordB)]
    min_days_between_clusters := 90, team_speed_kmh := 15
    same_cluster_move_days := 1 }

/-- A drilling-capable team. -/
def exTeam1 : Team := ⟨1, [Task.DRILLING]⟩

/-- A second drilling-capable team. -/
def exTeam2 : Team := ⟨2, [Task.DRILLING]⟩

/-- One yearly limit: at most one distinct drilling team in year 5. -/
def exLimits : YearlyLimits := [(5, [(Task.DRILLING, 1)])]

/-- A context whose single entry starts in year 5 (day 1900) with team 1. -/
def exCtx1 : WellPlanContext ℚ :=
  { well := exampleWell, start := 0, end_ := 10000
    entries := [⟨Task.DRILLING, exTeam1, 1900, 1930, 1⟩]
    cost := none, oil_prod_profile := [], liq_prod_profile := []
    metadata := fun _ => none }

/-- As `exCtx1` with team 2. -/
def exCtx2 : WellPlanContext ℚ :=
  { well := exampleWell2, start := 0, end_ := 10000
    entries := [⟨Task.DRILLING, exTeam2, 1935, 1965, 1⟩]
    cost := none, oil_prod_profile := [], liq_prod_profile := []
    metadata := fun _ => none }

/-- A pool with two drilling teams. -/
def exPool : TeamPoolMap := [(Task.DRILLING, [exTeam1, exTeam2])]

/-- A fresh manager over `exPool`, no limits. -/
def exManager : BaseTeamManager :=
  BaseTeamManager.init exPool SimpleTeamMovement.get_move_days true []

/-- A fresh context for `exampleWell` awaiting assignments. -/
def exCtx0 : WellPlanContext ℚ :=
  { well := exampleWell, start := 0, end_ := 10000
    entries := [], cost := none, oil_prod_profile := [], liq_prod_profile := []
    metadata := fun _ => none }

/-- A context over `exampleWell2`, whose `init_entry_date` is `None`. -/
def exCtxNoDate : WellPlanContext ℚ :=
  { well := exampleWell2, start := 0, end_ := 10000
    entries := [], cost := none, oil_prod_profile := [], liq_prod_profile := []
    metadata := fun _ => none }

/-- A concrete builder over trivial injected services. -/
def exBuilder : PlanBuilder Unit Unit :=
  { start := 0, end_ := 3650
    infra_get_ready_date := fun _ => 0
    profiler := fun _ => ([], [])
    cost_function := fun _ => (0, fun _ => none)
    constraints := { time_bounds := [], is_violated := fun _ _ => false }
    use_drill_team_penalty := true }

/-- A concrete random stream. -/
def exRand : Rand := ⟨fun _ => 0, 0⟩

/-- A trivial stateless manager model: no entries, no metadata. -/
def exMM : ManagerModel Unit :=
  { get_assignments := fun _ _ => ([], fun _ => none, ())
    assign := fun _ _ => () }

/-- A manager model that always schedules one drilling entry ending at day
30. -/
def exMM2 : ManagerModel Unit :=
  { get_assignments := fun _ ctx =>
      ([⟨Task.DRILLING, exTeam1, ctx.start, 30, 1⟩], fun _ => none, ())
    assign := fun _ _ => () }

/-- `exBuilder` with a constraint that rejects every candidate. -/
def exBuilderViol : PlanBuilder Unit Unit :=
  { exBuilder with
    constraints := { time_bounds := [], is_violated := fun _ _ => true } }

/-- A concrete NPV cost function: price 10, capex 5, no opex, rate 1/8,
travel rate 2 per day. -/
noncomputable def exNPV : NPV :=
  { oil_price_per_tone := 10, project_start_date := 0, capex_cost := fun _ => 5
    opex_cost := fun _ _ => [], discount_rate := 1 / 8, travel_cost_per_day := 2 }

/-- A context whose single drilling entry ends at the project start with a
3-day travel time. -/
noncomputable def exNPVCtx : WellPlanContext ℝ :=
  { well := exampleWell, start := 0, end_ := 100
    entries := [⟨Task.DRILLING, exTeam1, 0, 0, 3⟩]
    cost := none, oil_prod_profile := [], liq_prod_profile := []
    metadata := fun _ => none }

/-!
## Theorems
-/

/-- Sum of the some-valued costs, two ways. -/
theorem sum_filterMap_cost (l : List (WellPlanContext ℝ)) :
    (l.filterMap (fun wp => wp.cost)).sum =
      ((l.filter (fun wp => wp.cost.isSome)).map (fun wp => wp.cost.getD 0)).sum := by
  induction l with
  | nil => rfl
  | cons wp l ih =>
    cases h : wp.cost with
    | none => simp [List.filterMap_cons, List.filter_cons, h, ih]
    | some v => simp [List.filterMap_cons, List.filter_cons, h, ih]

/-- C7.  `Plan.total_profit()` equals the sum of the cost fields of the
well plans whose cost is not `None`; an empty plan, or one whose costs are
all `None`, totals 0. -/
theorem total_profit_spec :
    (∀ (p : Plan ℝ),
        p.total_profit =
          ((p.well_plans.filter (fun wp => wp.cost.isSome)).map
            (fun wp => wp.cost.getD 0)).sum)
    ∧ (∀ i : ℕ, (Plan.mk i []).total_profit = (0 : ℝ))
    ∧ (∀ (p : Plan ℝ), (∀ wp ∈ p.well_plans, wp.cost = none) → p.total_profit = 0) := by
  refine ⟨fun p => ?_, fun i => rfl, fun p h => ?_⟩
  · exact sum_filterMap_cost p.well_plans
  · unfold Plan.total_profit
    rw [List.filterMap_eq_nil_iff.mpr h]
    rfl

/-- C7 witness: a one-well plan with a `None` cost totals 0. -/
theorem total_profit_witness :
    (Plan.mk 0 [{ well := exampleWell, start := 0, end_ := 100, entries := []
                  cost := none, oil_prod_profile := [], liq_prod_profile := []
                  metadata := fun _ => none }] : Plan ℝ).total_profit = 0 := by
  exact total_profit_spec.2.2 _ (by intro wp hwp; simp at hwp; rw [hwp])

/-- The A→B distance of the fixture movement. -/
theorem cex_distance : cexCoordA.distance_to cexCoordB = 3600000 := by
  unfold Coordinate.distance_to cexCoordA cexCoordB
  rw [show ((0:ℝ) - 3600000) ^ 2 + ((0:ℝ) - 0) ^ 2 + ((0:ℝ) - 0) ^ 2
      = (3600000 : ℝ) ^ 2 by ring]
  exact Real.sqrt_sq (by norm_num)

/-- C8 counterexample: for clusters A and B of the fixture,
`DistanceTeamMovement.get_move_days` returns 90 + 10 = 100, while the
claimed floor `max(distance-derived days, min_days_between_clusters)`
equals 90. -/
theorem movement_days_counterexample :
    cexMovement.get_move_days (some "A") "B" = 100 ∧
    max ((cexCoordA.distance_to cexCoordB / (cexMovement.team_speed_kmh * 1000)) / 24)
      cexMovement.min_days_between_clusters = 90 := by
  constructor
  · unfold DistanceTeamMovement.get_move_days cexMovement
    rw [if_neg (by simp)]
    simp only [List.lookup, show ("A" == "A") = true from rfl,
      show ("B" == "A") = false from rfl, show ("B" == "B") = true from rfl]
    norm_num [cex_distance]
  · rw [cex_distance]
    unfold cexMovement
    norm_num [max_eq_right]

/-- C8 (amended).  `DistanceTeamMovement.get_move_days` returns the
same-cluster constant within one cluster, `min_days_between_clusters` for an
unknown origin or missing coordinates, and otherwise
`min_days_between_clusters` PLUS the distance-derived days
(distance / (speed·1000) / 24 — a sum, not a floor); `SimpleTeamMovement`
returns 1 within a cluster and a flat 14 otherwise. -/
theorem movement_days_spec :
    (∀ (m : DistanceTeamMovement) (tc : String),
        m.get_move_days (some tc) tc = m.same_cluster_move_days)
  ∧ (∀ (m : DistanceTeamMovement) (tc : String),
        m.get_move_days none tc = m.min_days_between_clusters)
  ∧ (∀ (m : DistanceTeamMovement) (fc tc : String) (a b : Coordinate),
        fc ≠ tc →
        List.lookup fc m.cluster_coordinates = some a →
        List.lookup tc m.cluster_coordinates = some b →
        m.get_move_days (some fc) tc =
          m.min_days_between_clusters + (a.distance_to b / (m.team_speed_kmh * 1000)) / 24)
  ∧ (∀ (m : DistanceTeamMovement) (fc tc : String),
        fc ≠ tc →
        (List.lookup fc m.cluster_coordinates = none ∨
          List.lookup tc m.cluster_coordinates = none) →
        m.get_move_days (some fc) tc = m.min_days_between_clusters)
  ∧ (∀ (fc : Option String) (tc : String),
        SimpleTeamMovement.get_move_days fc tc = if fc = some tc then 1 else 14) := by
  refine ⟨fun m tc => ?_, fun m tc => ?_, fun m fc tc a b hne ha hb => ?_,
    fun m fc tc hne hmiss => ?_, fun fc tc => rfl⟩
  · unfold DistanceTeamMovement.get_move_days
    rw [if_pos rfl]
  · unfold DistanceTeamMovement.get_move_days
    rw [if_neg (by simp)]
  · simp [DistanceTeamMovement.get_move_days, hne, ha, hb]
  · rcases hmiss with h | h
    · simp only [DistanceTeamMovement.get_move_days, h]
      rw [if_neg (by simpa using hne)]
    · simp only [DistanceTeamMovement.get_move_days, h]
      rw [if_neg (by simpa using hne)]
      cases List.lookup fc m.cluster_coordinates <;> rfl

/-- C8 witness: the amended rule evaluated on the fixture movement. -/
theorem movement_days_witness :
    cexMovement.get_move_days (some "A") "B" =
      cexMovement.min_days_between_clusters +
        (cexCoordA.distance_to cexCoordB / (cexMovement.team_speed_kmh * 1000)) / 24 := by
  exact movement_days_spec.2.2.1 cexMovement "A" "B" cexCoordA cexCoordB
    (by decide) (by simp [cexMovement, List.lookup]) (by simp [cexMovement, List.lookup])

/-! ### C2: yearly quota conformance -/

/-- A passing `_check_limit` at a limited (year, task) means the team is
already counted or the set is still below the limit. -/
theorem check_limit_true_of_limit
    (limits : YearlyLimits) (u : UsageCounts) (task : Task) (year : ℤ) (team : Team)
    (m : ℕ) (hl : limitFor limits year task = some m)
    (hc : check_limit limits u task year team = true) :
    team ∈ u year task ∨ (u year task).card < m := by
  unfold limitFor at hl
  cases hyl : List.lookup year limits with
  | none => rw [hyl] at hl; simp at hl
  | some yl =>
    rw [hyl] at hl
    replace hl : List.lookup task yl = some m := hl
    have hlim : limits.isEmpty = false := by
      cases limits with
      | nil => simp [List.lookup] at hyl
      | cons a l => rfl
    have hylne : yl.isEmpty = false := by
      cases yl with
      | nil => simp [List.lookup] at hl
      | cons a l => rfl
    by_cases hmem : team ∈ u year task
    · exact Or.inl hmem
    · right
      unfold check_limit at hc
      simp only [hlim, hyl, hylne, hl, Bool.false_eq_true, if_false, if_neg hmem] at hc
      exact of_decide_eq_true hc

/-- One `_record_usage` year step preserves the quota invariant. -/
theorem record_usage_step_preserves
    (limits : YearlyLimits) (task : Task) (team : Team) (u : UsageCounts) (y : ℤ)
    (h : QuotaInv limits u) :
    QuotaInv limits (record_usage_step limits task team u y) := by
  cases hlt : List.lookup task ((List.lookup y limits).getD []) with
  | none =>
    have hrw : record_usage_step limits task team u y = u := by
      simp only [record_usage_step, hlt]
    rw [hrw]; exact h
  | some cnt =>
    have hfor : limitFor limits y task = some cnt := by
      unfold limitFor
      cases hy : List.lookup y limits with
      | none => rw [hy] at hlt; simp [List.lookup] at hlt
      | some yl => rw [hy] at hlt; exact hlt
    by_cases hc : check_limit limits u task y team = true
    · have hrw : record_usage_step limits task team u y = u.record y task team := by
        simp only [record_usage_step, hlt, if_pos hc]
      rw [hrw]
      intro y2 t2 m2 hl2
      show (if y2 = y ∧ t2 = task then insert team (u y2 t2) else u y2 t2).card ≤ m2
      by_cases heq : y2 = y ∧ t2 = task
      · rw [if_pos heq]
        obtain ⟨rfl, rfl⟩ := heq
        obtain rfl := Option.some.inj (hfor.symm.trans hl2)
        rcases check_limit_true_of_limit limits u t2 y2 team cnt hfor hc with hmem | hlt2
        · rw [Finset.insert_eq_self.mpr hmem]
          exact h y2 t2 cnt hl2
        · calc (insert team (u y2 t2)).card ≤ (u y2 t2).card + 1 :=
                Finset.card_insert_le team (u y2 t2)
            _ ≤ cnt := hlt2
      · rw [if_neg heq]
        exact h y2 t2 m2 hl2
    · have hrw : record_usage_step limits task team u y = u := by
        simp only [record_usage_step, hlt, if_neg hc]
      rw [hrw]; exact h

/-- `_record_usage` preserves the quota invariant. -/
theorem record_usage_preserves
    (limits : YearlyLimits) (u : UsageCounts) (task : Task) (ay : ℤ) (team : Team)
    (h : QuotaInv limits u) :
    QuotaInv limits (record_usage limits u task ay team) := by
  unfold record_usage
  generalize (((limits.map Prod.fst).filter fun y => decide (ay ≤ y)).mergeSort
    fun a b => decide (a ≤ b)) = ys
  induction ys generalizing u with
  | nil => exact h
  | cons y ys ih => exact ih _ (record_usage_step_preserves limits task team u y h)

/-- `assign` keeps the limit table and preserves the quota invariant. -/
theorem assign_limits_and_quota (ctx : WellPlanContext ℚ) :
    ∀ (mgr : BaseTeamManager), QuotaInv mgr.limits mgr.usage_counts →
      (mgr.assign ctx).limits = mgr.limits ∧
        QuotaInv (mgr.assign ctx).limits (mgr.assign ctx).usage_counts := by
  unfold BaseTeamManager.assign
  generalize ctx.entries = es
  induction es with
  | nil => exact fun mgr h => ⟨rfl, h⟩
  | cons e es ih =>
    intro mgr h
    obtain ⟨hl, hq⟩ := ih
      { mgr with
        states := fun tm =>
          if tm = e.team then ⟨e.end_, some ctx.well.cluster⟩ else mgr.states tm
        usage_counts :=
          record_usage mgr.limits mgr.usage_counts e.task (yearOf e.start) e.team }
      (record_usage_preserves mgr.limits mgr.usage_counts e.task (yearOf e.start) e.team h)
    exact ⟨hl, hq⟩

/-- Any call sequence keeps the limit table and the quota invariant. -/
theorem run_ops_quota (ops : List ManagerOp) :
    ∀ (mgr : BaseTeamManager), QuotaInv mgr.limits mgr.usage_counts →
      (run_ops mgr ops).limits = mgr.limits ∧
        QuotaInv (run_ops mgr ops).limits (run_ops mgr ops).usage_counts := by
  induction ops with
  | nil => exact fun mgr h => ⟨rfl, h⟩
  | cons op ops ih =>
    intro mgr h
    cases op with
    | assignOp ctx =>
      obtain ⟨hl, hq⟩ := assign_limits_and_quota ctx mgr h
      obtain ⟨hl2, hq2⟩ := ih _ hq
      exact ⟨hl2.trans hl, hq2⟩
    | getAssignmentsOp ctx => exact ih mgr h

/-- C2.  After any sequence of `get_assignments`/`assign` calls on a fresh
manager, the distinct teams recorded for a limit-configured (year, task)
never exceed the limit; a team already counted passes `_check_limit`, and
re-recording it leaves the (year, task) usage set unchanged. -/
theorem quota_conformance :
    (∀ (pool : TeamPoolMap) (movement : Option String → String → ℚ)
        (enable : Bool) (limits : YearlyLimits) (ops : List ManagerOp)
        (y : ℤ) (t : Task) (L : ℕ),
        limitFor limits y t = some L →
        ((run_ops (BaseTeamManager.init pool movement enable limits) ops).usage_counts
          y t).card ≤ L)
  ∧ (∀ (limits : YearlyLimits) (u : UsageCounts) (t : Task) (y : ℤ) (team : Team),
        team ∈ u y t → check_limit limits u t y team = true)
  ∧ (∀ (limits : YearlyLimits) (u : UsageCounts) (task t : Task) (ay y : ℤ)
        (team : Team),
        team ∈ u y t → record_usage limits u task ay team y t = u y t) := by
  refine ⟨fun pool movement enable limits ops y t L hL => ?_,
    fun limits u t y team hmem => ?_, fun limits u task t ay y team hmem => ?_⟩
  · have h0 : QuotaInv limits (fun _ _ => (∅ : Finset Team)) := by
      intro y2 t2 m2 _
      simp
    obtain ⟨hl, hq⟩ := run_ops_quota ops (BaseTeamManager.init pool movement enable limits) h0
    refine hq y t L ?_
    rw [hl]
    exact hL
  · unfold check_limit
    by_cases h1 : limits.isEmpty = true
    · rw [if_pos h1]
    · rw [if_neg h1]
      cases List.lookup y limits with
      | none => rfl
      | some yl =>
        show (if yl.isEmpty = true then true
          else
            match List.lookup t yl with
            | none => true
            | some max_count =>
              if team ∈ u y t then true else decide ((u y t).card < max_count)) = true
        by_cases h2 : yl.isEmpty = true
        · rw [if_pos h2]
        · rw [if_neg h2]
          cases List.lookup t yl with
          | none => rfl
          | some m =>
            show (if team ∈ u y t then true else decide ((u y t).card < m)) = true
            rw [if_pos hmem]
  · unfold record_usage
    generalize (((limits.map Prod.fst).filter fun y2 => decide (ay ≤ y2)).mergeSort
      fun a b => decide (a ≤ b)) = ys
    induction ys generalizing u with
    | nil => rfl
    | cons y0 ys ih =>
      have hstep : record_usage_step limits task team u y0 y t = u y t := by
        cases hlt : List.lookup task ((List.lookup y0 limits).getD []) with
        | none => simp only [record_usage_step, hlt]
        | some cnt =>
          by_cases hc : check_limit limits u task y0 team = true
          · simp only [record_usage_step, hlt, if_pos hc]
            show (if y = y0 ∧ t = task then insert team (u y t) else u y t) = u y t
            by_cases heq : y = y0 ∧ t = task
            · rw [if_pos heq]
              obtain ⟨rfl, rfl⟩ := heq
              exact Finset.insert_eq_self.mpr hmem
            · rw [if_neg heq]
          · simp only [record_usage_step, hlt, if_neg hc]
      have hmem2 : team ∈ record_usage_step limits task team u y0 y t := by
        rw [hstep]; exact hmem
      rw [List.foldl_cons, ih _ hmem2, hstep]

/-- C2 witness: with one drilling team allowed in year 5, two assignments of
different teams in that year still leave at most one recorded. -/
theorem quota_conformance_witness :
    limitFor exLimits 5 Task.DRILLING = some 1 ∧
    ((run_ops
        (BaseTeamManager.init [(Task.DRILLING, [exTeam1, exTeam2])]
          SimpleTeamMovement.get_move_days true exLimits)
        [ManagerOp.assignOp exCtx1, ManagerOp.assignOp exCtx2]).usage_counts
      5 Task.DRILLING).card ≤ 1 :=
  ⟨rfl, quota_conformance.1 _ _ _ _ _ _ _ _ rfl⟩

/-! ### C5: earliest-finish tie-break in `get_assignments` -/

/-- `lookup` misses when no key matches. -/
theorem lookup_eq_none_of_forall_ne {β : Type} (y : ℤ) :
    ∀ (l : List (ℤ × β)), (∀ p ∈ l, p.1 ≠ y) → List.lookup y l = none := by
  intro l
  induction l with
  | nil => intro _; rfl
  | cons p l ih =>
    intro h
    have hne : p.1 ≠ y := h p (List.mem_cons_self p l)
    have hbeq : (y == p.1) = false := by
      rw [beq_eq_false_iff_ne]
      exact fun he => hne he.symm
    obtain ⟨k, b⟩ := p
    simp only [List.lookup, hbeq]
    exact ih (fun q hq => h q (List.mem_cons_of_mem _ hq))

/-- The seed is below a max-fold. -/
theorem init_le_foldl_max : ∀ (l : List ℤ) (a : ℤ), a ≤ l.foldl max a := by
  intro l
  induction l with
  | nil => exact fun a => le_refl a
  | cons b l ih => exact fun a => le_trans (le_max_left a b) (ih (max a b))

/-- Every element is below a max-fold. -/
theorem le_foldl_max : ∀ (l : List ℤ) (a x : ℤ), x ∈ l → x ≤ l.foldl max a := by
  intro l
  induction l with
  | nil => intro a x hx; cases hx
  | cons b l ih =>
    intro a x hx
    rcases List.mem_cons.mp hx with rfl | hx2
    · exact le_trans (le_max_right a x) (init_le_foldl_max l (max a x))
    · exact ih (max a b) x hx2

/-- Beyond every limit-configured year the quota check passes. -/
theorem check_limit_of_year_gt (limits : YearlyLimits) (u : UsageCounts) (task : Task)
    (team : Team) (year : ℤ) (h : limitsMaxYear limits < year) :
    check_limit limits u task year team = true := by
  unfold check_limit
  by_cases h1 : limits.isEmpty = true
  · rw [if_pos h1]
  · rw [if_neg h1]
    have hnone : List.lookup year limits = none := by
      apply lookup_eq_none_of_forall_ne
      intro p hp heq
      have hle := le_foldl_max (limits.map Prod.fst) 0 p.1
        (List.mem_map_of_mem Prod.fst hp)
      rw [heq] at hle
      exact absurd hle (not_le.mpr h)
    rw [hnone]

/-- January 1 of year `y` lies in year `y`. -/
theorem yearOf_jan1 (y : ℤ) : yearOf (jan1 y) = y := by
  unfold yearOf jan1
  rw [mul_comm, mul_div_assoc]
  norm_num

/-- The year-advance search succeeds once the fuel spans the limit horizon. -/
theorem find_start_aux_some (limits : YearlyLimits) (u : UsageCounts) (task : Task)
    (team : Team) : ∀ (n : ℕ) (start : ℚ),
    limitsMaxYear limits < yearOf start + n →
    ∃ d, find_start_aux limits u task team (n + 1) start = some d := by
  intro n
  induction n with
  | zero =>
    intro start h
    refine ⟨start, ?_⟩
    unfold find_start_aux
    rw [if_pos (check_limit_of_year_gt limits u task team (yearOf start) (by simpa using h))]
  | succ n ih =>
    intro start h
    by_cases hc : check_limit limits u task (yearOf start) team = true
    · exact ⟨start, by unfold find_start_aux; rw [if_pos hc]⟩
    · obtain ⟨d, hd⟩ := ih (jan1 (yearOf start + 1))
        (by rw [yearOf_jan1]; push_cast at h ⊢; linarith)
      exact ⟨d, by unfold find_start_aux; rw [if_neg hc]; exact hd⟩

/-- `_find_available_start_time` never returns `None`: the `while True` loop
always terminates with a start (quota checks pass beyond the last configured
year). -/
theorem find_available_start_time_some (mgr : BaseTeamManager) (task : Task)
    (team : Team) (travel : ℚ) (ctx : WellPlanContext ℚ) :
    ∃ d, find_available_start_time mgr task team travel ctx = some d := by
  unfold find_available_start_time
  apply find_start_aux_some
  omega

/-- `filterMap` with a never-failing function keeps the length. -/
theorem length_filterMap_of_forall_some {α β : Type} (f : α → Option β) (l : List α)
    (h : ∀ x ∈ l, ∃ y, f x = some y) : (l.filterMap f).length = l.length := by
  induction l with
  | nil => rfl
  | cons a l ih =>
    obtain ⟨y, hy⟩ := h a (List.mem_cons_self a l)
    rw [List.filterMap_cons, hy]
    simp only [List.length_cons]
    rw [ih (fun x hx => h x (List.mem_cons_of_mem a hx))]

/-- One candidate tuple per capable team. -/
theorem task_candidates_length (mgr : BaseTeamManager) (well : Well)
    (ctx : WellPlanContext ℚ) (task : Task) :
    (task_candidates mgr well ctx task).length =
      (poolGetTeamsForTask mgr.team_pool task).length := by
  unfold task_candidates
  apply length_filterMap_of_forall_some
  intro team _
  obtain ⟨d, hd⟩ := find_available_start_time_some mgr task team
    (mgr.movement (mgr.states team).current_cluster well.cluster) ctx
  refine ⟨(d, d + task.duration, team,
    mgr.movement (mgr.states team).current_cluster well.cluster), ?_⟩
  show Option.map _ (find_available_start_time mgr task team
    (mgr.movement (mgr.states team).current_cluster well.cluster) ctx) = _
  rw [hd]
  rfl

/-- The `min` scan stays inside the candidate list. -/
theorem min_by_end_mem : ∀ (cs : List TaskCandidate) (c : TaskCandidate),
    min_by_end c cs = c ∨ min_by_end c cs ∈ cs := by
  intro cs
  induction cs with
  | nil => exact fun c => Or.inl rfl
  | cons x xs ih =>
    intro c
    unfold min_by_end at *
    simp only [List.foldl_cons]
    by_cases h : x.2.1 < c.2.1
    · rw [if_pos h]
      rcases ih x with h2 | h2
      · right; rw [h2]; exact List.mem_cons_self x xs
      · right; exact List.mem_cons_of_mem x h2
    · rw [if_neg h]
      rcases ih c with h2 | h2
      · exact Or.inl h2
      · right; exact List.mem_cons_of_mem x h2

/-- The `min` scan yields the smallest end time. -/
theorem min_by_end_le : ∀ (cs : List TaskCandidate) (c : TaskCandidate),
    (min_by_end c cs).2.1 ≤ c.2.1 ∧ ∀ x ∈ cs, (min_by_end c cs).2.1 ≤ x.2.1 := by
  intro cs
  induction cs with
  | nil => exact fun c => ⟨le_refl _, by intro x hx; cases hx⟩
  | cons x xs ih =>
    intro c
    unfold min_by_end at *
    simp only [List.foldl_cons]
    by_cases h : x.2.1 < c.2.1
    · rw [if_pos h]
      obtain ⟨h1, h2⟩ := ih x
      refine ⟨le_of_lt (lt_of_le_of_lt h1 h), ?_⟩
      intro z hz
      rcases List.mem_cons.mp hz with rfl | hz2
      · exact h1
      · exact h2 z hz2
    · rw [if_neg h]
      obtain ⟨h1, h2⟩ := ih c
      refine ⟨h1, ?_⟩
      intro z hz
      rcases List.mem_cons.mp hz with rfl | hz2
      · exact le_trans h1 (le_of_not_lt h)
      · exact h2 z hz2

/-- The per-task step result: one appended entry realizing the minimal end
over one candidate per capable team. -/
theorem process_task_ok_spec (mgr : BaseTeamManager) (ctx : WellPlanContext ℚ)
    (task : Task) (hsupp : task ∈ poolSupportedTasks mgr.team_pool)
    (hteams : poolGetTeamsForTask mgr.team_pool task ≠ []) :
    ∃ (e : ScheduleEntry) (ctx2 : WellPlanContext ℚ),
      process_task mgr ctx task = .ok ctx2 ∧
      ctx2.entries = ctx.entries ++ [e] ∧
      e.task = task ∧
      (e.start, e.end_, e.team, e.travel_time) ∈ task_candidates mgr ctx.well ctx task ∧
      (∀ c ∈ task_candidates mgr ctx.well ctx task, e.end_ ≤ c.2.1) := by
  have hnot : ¬(task ∉ poolSupportedTasks mgr.team_pool) := not_not_intro hsupp
  cases hcand : task_candidates mgr ctx.well ctx task with
  | nil =>
    exfalso
    have := task_candidates_length mgr ctx.well ctx task
    rw [hcand] at this
    exact hteams (List.eq_nil_of_length_eq_zero this.symm)
  | cons c cs =>
    refine ⟨⟨task, (min_by_end c cs).2.2.1, (min_by_end c cs).1, (min_by_end c cs).2.1,
      (min_by_end c cs).2.2.2⟩, ?_, ?_, ?_, ?_, ?_, ?_⟩
    · exact if mgr.enable_team_count then
        { ctx with
          entries := ctx.entries ++ [⟨task, (min_by_end c cs).2.2.1, (min_by_end c cs).1,
            (min_by_end c cs).2.1, (min_by_end c cs).2.2.2⟩]
          metadata := metaSet ctx.metadata task.teamCountKey
            ((count_teams_on_cluster_by_task mgr ctx.well.cluster task
              (min_by_end c cs).2.2.1 : ℕ) : ℚ) }
      else
        { ctx with
          entries := ctx.entries ++ [⟨task, (min_by_end c cs).2.2.1, (min_by_end c cs).1,
            (min_by_end c cs).2.1, (min_by_end c cs).2.2.2⟩] }
    · unfold process_task
      rw [if_neg hnot, hcand]
    · by_cases h : mgr.enable_team_count = true <;> simp [h]
    · rfl
    · have heta : ((min_by_end c cs).1, (min_by_end c cs).2.1, (min_by_end c cs).2.2.1,
          (min_by_end c cs).2.2.2) = min_by_end c cs := rfl
      rw [heta]
      rcases min_by_end_mem cs c with h | h
      · rw [h]; exact List.mem_cons_self c cs
      · exact List.mem_cons_of_mem c h
    · intro cand hcand2
      show (min_by_end c cs).2.1 ≤ cand.2.1
      obtain ⟨h1, h2⟩ := min_by_end_le cs c
      rcases List.mem_cons.mp hcand2 with rfl | hz
      · exact h1
      · exact h2 cand hz

/-- Any supported task processes without an exception. -/
theorem process_task_ok_of_supported (mgr : BaseTeamManager) (ctx : WellPlanContext ℚ)
    (task : Task) (hsupp : task ∈ poolSupportedTasks mgr.team_pool) :
    ∃ ctx2, process_task mgr ctx task = .ok ctx2 := by
  have hnot : ¬(task ∉ poolSupportedTasks mgr.team_pool) := not_not_intro hsupp
  unfold process_task
  rw [if_neg hnot]
  cases task_candidates mgr ctx.well ctx task with
  | nil => exact ⟨ctx, rfl⟩
  | cons c cs => exact ⟨_, rfl⟩

/-- A supported-task step appends exactly one entry. -/
theorem process_task_appends_one (mgr : BaseTeamManager) (ctx ctx2 : WellPlanContext ℚ)
    (task : Task) (hsupp : task ∈ poolSupportedTasks mgr.team_pool)
    (hteams : poolGetTeamsForTask mgr.team_pool task ≠ [])
    (hok : process_task mgr ctx task = .ok ctx2) :
    ∃ e, ctx2.entries = ctx.entries ++ [e] := by
  obtain ⟨e, ctx2b, hok2, hent, _⟩ := process_task_ok_spec mgr ctx task hsupp hteams
  rw [hok] at hok2
  exact ⟨e, by rw [Except.ok.inj hok2]; exact hent⟩

/-- The `get_assignments` fold succeeds and appends one entry per task when
every task is supported with a nonempty team list. -/
theorem get_assignments_fold_spec (mgr : BaseTeamManager) :
    ∀ (tasks : List Task) (ctx : WellPlanContext ℚ),
      (∀ t ∈ tasks, t ∈ poolSupportedTasks mgr.team_pool ∧
        poolGetTeamsForTask mgr.team_pool t ≠ []) →
      ∃ ctx2, tasks.foldlM (process_task mgr) ctx = .ok ctx2 ∧
        ∃ news, ctx2.entries = ctx.entries ++ news ∧ news.length = tasks.length := by
  intro tasks
  induction tasks with
  | nil => exact fun ctx _ => ⟨ctx, rfl, [], by simp⟩
  | cons t ts ih =>
    intro ctx h
    obtain ⟨hsupp, hteams⟩ := h t (List.mem_cons_self t ts)
    obtain ⟨ctx1, hok⟩ := process_task_ok_of_supported mgr ctx t hsupp
    obtain ⟨e, hent⟩ := process_task_appends_one mgr ctx ctx1 t hsupp hteams hok
    obtain ⟨ctx2, hok2, news, hent2, hlen⟩ :=
      ih ctx1 (fun x hx => h x (List.mem_cons_of_mem t hx))
    refine ⟨ctx2, ?_, [e] ++ news, ?_, ?_⟩
    · rw [List.foldlM_cons, hok]
      exact hok2
    · rw [hent2, hent, List.append_assoc]
    · simp [hlen]

/-- An unsupported task makes the `get_assignments` fold raise `ValueError`. -/
theorem get_assignments_fold_err (mgr : BaseTeamManager) :
    ∀ (tasks : List Task) (ctx : WellPlanContext ℚ),
      (∃ t ∈ tasks, t ∉ poolSupportedTasks mgr.team_pool) →
      tasks.foldlM (process_task mgr) ctx = .error .valueError := by
  intro tasks
  induction tasks with
  | nil => intro ctx h; obtain ⟨t, ht, _⟩ := h; cases ht
  | cons t ts ih =>
    intro ctx h
    by_cases hsupp : t ∈ poolSupportedTasks mgr.team_pool
    · obtain ⟨ctx1, hok⟩ := process_task_ok_of_supported mgr ctx t hsupp
      rw [List.foldlM_cons, hok]
      obtain ⟨t2, ht2, hn2⟩ := h
      rcases List.mem_cons.mp ht2 with rfl | hmem
      · exact absurd hsupp hn2
      · exact ih ctx1 ⟨t2, hmem, hn2⟩
    · have herr : process_task mgr ctx t = .error .valueError := by
        unfold process_task
        rw [if_pos hsupp]
      rw [List.foldlM_cons, herr]
      rfl

/-- C5.  For a context whose well's tasks are all supported,
`TeamManager.get_assignments` succeeds and appends exactly one entry per
task, and each per-task step appends the candidate with the minimal end
time among one candidate per capable team; a task supported by no team
raises `ValueError`. -/
theorem earliest_finish_tiebreak :
    (∀ (mgr : BaseTeamManager) (ctx : WellPlanContext ℚ) (task : Task),
        task ∈ poolSupportedTasks mgr.team_pool →
        poolGetTeamsForTask mgr.team_pool task ≠ [] →
        ∃ (e : ScheduleEntry) (ctx2 : WellPlanContext ℚ),
          process_task mgr ctx task = .ok ctx2 ∧
          ctx2.entries = ctx.entries ++ [e] ∧
          e.task = task ∧
          (e.start, e.end_, e.team, e.travel_time) ∈ task_candidates mgr ctx.well ctx task ∧
          (∀ c ∈ task_candidates mgr ctx.well ctx task, e.end_ ≤ c.2.1) ∧
          (task_candidates mgr ctx.well ctx task).length =
            (poolGetTeamsForTask mgr.team_pool task).length)
  ∧ (∀ (mgr : BaseTeamManager) (ctx : WellPlanContext ℚ),
        (∀ t ∈ ctx.well.tasks, t ∈ poolSupportedTasks mgr.team_pool ∧
          poolGetTeamsForTask mgr.team_pool t ≠ []) →
        ∃ ctx2, get_assignments mgr ctx = .ok ctx2 ∧
          ∃ news, ctx2.entries = ctx.entries ++ news ∧
            news.length = ctx.well.tasks.length)
  ∧ (∀ (mgr : BaseTeamManager) (ctx : WellPlanContext ℚ),
        (∃ t ∈ ctx.well.tasks, t ∉ poolSupportedTasks mgr.team_pool) →
        get_assignments mgr ctx = .error .valueError) := by
  refine ⟨fun mgr ctx task hsupp hteams => ?_, fun mgr ctx h => ?_, fun mgr ctx h => ?_⟩
  · obtain ⟨e, ctx2, h1, h2, h3, h4, h5⟩ := process_task_ok_spec mgr ctx task hsupp hteams
    exact ⟨e, ctx2, h1, h2, h3, h4, h5, task_candidates_length mgr ctx.well ctx task⟩
  · exact get_assignments_fold_spec mgr ctx.well.tasks ctx h
  · exact get_assignments_fold_err mgr ctx.well.tasks ctx h

/-- C5 witness: both drilling teams of the example pool are considered and
the single task yields exactly one appended entry. -/
theorem earliest_finish_witness :
    ∃ ctx2, get_assignments exManager exCtx0 = .ok ctx2 ∧
      ∃ news, ctx2.entries = exCtx0.entries ++ news ∧
        news.length = exCtx0.well.tasks.length := by
  refine earliest_finish_tiebreak.2.1 exManager exCtx0 ?_
  intro t ht
  constructor
  · cases ht with
    | head => decide
    | tail _ h2 => cases h2
  · cases ht with
    | head => decide
    | tail _ h2 => cases h2

/-! ### C10: keep-order selection with a missing entry date -/

/-- The `min` scan raises `TypeError` as soon as any element of the tail has
a `None` key (Python compares every element against the running best). -/
theorem pyMinOptAux_err_of_mem_none {α : Type} (key : α → Option ℚ) :
    ∀ (l : List α) (best : α), (∃ x ∈ l, key x = none) →
      pyMinOptAux key best l = .error .typeError := by
  intro l
  induction l with
  | nil => intro best h; obtain ⟨x, hx, _⟩ := h; cases hx
  | cons x xs ih =>
    intro best h
    cases hkx : key x with
    | none => simp only [pyMinOptAux, optLt, hkx]; rfl
    | some qx =>
      cases hkb : key best with
      | none => simp only [pyMinOptAux, optLt, hkx, hkb]; rfl
      | some qb =>
        obtain ⟨z, hz, hzn⟩ := h
        rcases List.mem_cons.mp hz with rfl | hz2
        · rw [hzn] at hkx; cases hkx
        · simp only [pyMinOptAux, optLt, hkx, hkb]
          exact ih _ ⟨z, hz2, hzn⟩

/-- C10.  With `keep_order=True`, two or more candidates, and at least one
candidate well lacking an `init_entry_date`, `_select_best_candidate` raises
`TypeError` (Python cannot order `None` against a datetime). -/
theorem keep_order_none_typeerror (B : PlanBuilder σ ρ) (expFn : ℚ → ℚ)
    (candidates : List (WellPlanContext ℚ)) (r : Rand)
    (hlen : 2 ≤ candidates.length)
    (hnone : ∃ c ∈ candidates, c.well.init_entry_date = none) :
    select_best_candidate B expFn candidates true r = .error .typeError := by
  have hmin : pyMinOpt (fun c => c.well.init_entry_date) candidates = .error .typeError := by
    cases candidates with
    | nil => simp at hlen
    | cons c0 rest =>
      cases rest with
      | nil => simp at hlen
      | cons c1 rest2 =>
        unfold pyMinOpt
        obtain ⟨z, hz, hzn⟩ := hnone
        rcases List.mem_cons.mp hz with rfl | hz2
        · cases hk1 : c1.well.init_entry_date with
          | none => simp only [pyMinOptAux, optLt, hk1, hzn]; rfl
          | some q => simp only [pyMinOptAux, optLt, hk1, hzn]; rfl
        · exact pyMinOptAux_err_of_mem_none _ _ c0 ⟨z, hz2, hzn⟩
  unfold select_best_candidate
  rw [if_pos rfl, hmin]
  rfl

/-- C10 witness: one dated and one dateless candidate raise `TypeError`. -/
theorem keep_order_none_typeerror_witness :
    select_best_candidate exBuilder (fun _ => 0) [exCtx0, exCtxNoDate] true exRand =
      .error .typeError := by
  refine keep_order_none_typeerror exBuilder (fun _ => 0) [exCtx0, exCtxNoDate] exRand
    (by norm_num) ⟨exCtxNoDate, ?_, rfl⟩
  simp

/-! ### C1: cluster precedence -/

/-- `random.choice` returns a member. -/
theorem pyChoice_mem {α : Type} (l : List α) (r : Rand) (x : α) (r2 : Rand)
    (h : pyChoice l r = .ok (x, r2)) : x ∈ l := by
  cases l with
  | nil => cases h
  | cons a as =>
    simp only [pyChoice] at h
    have hx : (a :: as).getD (r.nextNat.1 % (a :: as).length) a = x :=
      congrArg Prod.fst (Except.ok.inj h)
    have hlt : r.nextNat.1 % (a :: as).length < (a :: as).length :=
      Nat.mod_lt _ (by simp)
    have hmem : (a :: as).getD (r.nextNat.1 % (a :: as).length) a ∈ (a :: as) := by
      rw [List.getD_eq_getElem?_getD, List.getElem?_eq_getElem hlt, Option.getD_some]
      exact List.getElem_mem hlt
    rwa [hx] at hmem

/-- Python's `max` scan stays inside its list. -/
theorem max_by_score_mem {β : Type} : ∀ (ss : List (β × ℚ)) (s0 : β × ℚ),
    max_by_score s0 ss = s0 ∨ max_by_score s0 ss ∈ ss := by
  intro ss
  induction ss with
  | nil => exact fun s0 => Or.inl rfl
  | cons x xs ih =>
    intro s0
    unfold max_by_score at *
    simp only [List.foldl_cons]
    by_cases h : x.2 > s0.2
    · rw [if_pos h]
      rcases ih x with h2 | h2
      · right; rw [h2]; exact List.mem_cons_self x xs
      · right; exact List.mem_cons_of_mem x h2
    · rw [if_neg h]
      rcases ih s0 with h2 | h2
      · exact Or.inl h2
      · right; exact List.mem_cons_of_mem x h2

/-- Every scored pair's candidate comes from the scored list. -/
theorem score_all_fst_mem (B : PlanBuilder σ ρ) (cs : List (WellPlanContext ℚ))
    (r : Rand) : ∀ p ∈ (score_all B cs r).1, p.1 ∈ cs := by
  unfold score_all
  suffices h : ∀ (ws : List (WellPlanContext ℚ)) (acc : List (WellPlanContext ℚ × ℚ) × Rand),
      (∀ p ∈ acc.1, p.1 ∈ cs) → (∀ w ∈ ws, w ∈ cs) →
      ∀ p ∈ (ws.foldl (score_all_step B) acc).1, p.1 ∈ cs by
    exact h cs ([], r) (by simp) (fun x hx => hx)
  intro ws
  induction ws with
  | nil => exact fun acc hacc _ p hp => hacc p hp
  | cons w ws ih =>
    intro acc hacc hsub p hp
    refine ih (score_all_step B acc w) ?_ (fun x hx => hsub x (List.mem_cons_of_mem w hx)) p hp
    intro q hq
    simp only [score_all_step] at hq
    rcases List.mem_append.mp hq with h1 | h2
    · exact hacc q h1
    · rcases List.mem_singleton.mp h2 with rfl
      exact hsub w (List.mem_cons_self w ws)

/-- `_get_neighbor_candidate` returns a member of the valid candidates. -/
theorem get_neighbor_candidate_mem (valid : List (WellPlanContext ℚ))
    (current x : WellPlanContext ℚ) (r r2 : Rand)
    (h : get_neighbor_candidate valid current r = .ok (x, r2)) : x ∈ valid := by
  simp only [get_neighbor_candidate] at h
  split at h
  · exact pyChoice_mem _ _ _ _ h
  · split at h
    · exact pyChoice_mem _ _ _ _ h
    · exact List.mem_of_mem_filter (pyChoice_mem _ _ _ _ h)

/-- The SA inner loop keeps its current and best candidates in the pool. -/
theorem sa_inner_mem (B : PlanBuilder σ ρ) (expFn : ℚ → ℚ)
    (valid : List (WellPlanContext ℚ)) (temp : ℚ) :
    ∀ (n : ℕ) (st : SAState) (r : Rand) (st2 : SAState) (r2 : Rand),
      sa_inner B expFn valid temp n st r = .ok (st2, r2) →
      st.current ∈ valid → st.best ∈ valid →
      st2.current ∈ valid ∧ st2.best ∈ valid := by
  intro n
  induction n with
  | zero =>
    intro st r st2 r2 h hc hb
    obtain ⟨rfl, rfl⟩ := Prod.mk.inj (Except.ok.inj h)
    exact ⟨hc, hb⟩
  | succ n ih =>
    intro st r st2 r2 h hc hb
    simp only [sa_inner] at h
    cases hg : get_neighbor_candidate valid st.current r with
    | error e => rw [hg] at h; exact Except.noConfusion h
    | ok p =>
      rw [hg] at h
      obtain ⟨neighbor, r1⟩ := p
      have hnb : neighbor ∈ valid := get_neighbor_candidate_mem valid st.current neighbor r r1 hg
      refine ih _ _ st2 r2 h ?_ ?_
      all_goals {
        dsimp only
        split
        · split
          · exact hnb
          · first
              | exact hnb
              | exact hb
        · first
            | exact hc
            | exact hb
      }

/-- The SA outer loop keeps its best candidate in the pool. -/
theorem sa_outer_mem (B : PlanBuilder σ ρ) (expFn : ℚ → ℚ)
    (valid : List (WellPlanContext ℚ)) :
    ∀ (fuel : ℕ) (temp : ℚ) (st : SAState) (r : Rand) (st2 : SAState) (r2 : Rand),
      sa_outer B expFn valid fuel temp st r = .ok (st2, r2) →
      st.current ∈ valid → st.best ∈ valid →
      st2.current ∈ valid ∧ st2.best ∈ valid := by
  intro fuel
  induction fuel with
  | zero =>
    intro temp st r st2 r2 h hc hb
    obtain ⟨rfl, rfl⟩ := Prod.mk.inj (Except.ok.inj h)
    exact ⟨hc, hb⟩
  | succ n ih =>
    intro temp st r st2 r2 h hc hb
    simp only [sa_outer] at h
    split at h
    · cases hin : sa_inner B expFn valid temp 10 st r with
      | error e => rw [hin] at h; exact Except.noConfusion h
      | ok p =>
        rw [hin] at h
        obtain ⟨st3, r3⟩ := p
        obtain ⟨hc3, hb3⟩ := sa_inner_mem B expFn valid temp 10 st r st3 r3 hin hc hb
        exact ih _ st3 r3 st2 r2 h hc3 hb3
    · obtain ⟨rfl, rfl⟩ := Prod.mk.inj (Except.ok.inj h)
      exact ⟨hc, hb⟩

/-- `_simulated_annealing_selection` returns one of its candidates. -/
theorem sa_selection_mem (B : PlanBuilder σ ρ) (expFn : ℚ → ℚ)
    (cands : List (WellPlanContext ℚ)) (r : Rand) (c : WellPlanContext ℚ) (r2 : Rand)
    (h : simulated_annealing_selection B expFn cands r = .ok (c, r2)) : c ∈ cands := by
  cases hval : cands.filter (fun c2 => c2.cost.isSome) with
  | nil =>
    cases cands with
    | nil => simp only [simulated_annealing_selection] at h; exact Except.noConfusion h
    | cons c0 rest =>
      simp only [simulated_annealing_selection, hval] at h
      obtain ⟨rfl, rfl⟩ := Prod.mk.inj (Except.ok.inj h)
      exact List.mem_cons_self c0 rest
  | cons v0 vs =>
    have hsub : ∀ z ∈ v0 :: vs, z ∈ cands := by
      intro z hz
      rw [← hval] at hz
      exact List.mem_of_mem_filter hz
    cases cands with
    | nil => simp [List.filter_nil] at hval
    | cons c0 rest =>
      simp only [simulated_annealing_selection, hval] at h
      split at h
      · split at h
        · split at h
          · exact Except.noConfusion h
          · rename_i s0 ss heq
            obtain ⟨rfl, rfl⟩ := Prod.mk.inj (Except.ok.inj h)
            apply hsub
            apply score_all_fst_mem B (v0 :: vs) _ (max_by_score s0 ss)
            rw [heq]
            rcases max_by_score_mem ss s0 with h2 | h2
            · rw [h2]; exact List.mem_cons_self s0 ss
            · exact List.mem_cons_of_mem s0 h2
        · exact hsub _ (pyChoice_mem _ _ _ _ h)
      · cases hch : pyChoice (v0 :: vs) r with
        | error e => rw [hch] at h; exact Except.noConfusion h
        | ok p =>
          rw [hch] at h
          obtain ⟨cc, r1⟩ := p
          have hcc : cc ∈ v0 :: vs := pyChoice_mem _ _ _ _ hch
          replace h : (do
              let st ← sa_outer B expFn (v0 :: vs) 1000 1000
                { current := cc, current_score := (calculate_candidate_score B cc r1).1
                  best := cc, best_score := (calculate_candidate_score B cc r1).1 }
                (calculate_candidate_score B cc r1).2
              Except.ok (st.1.best, st.2)) = Except.ok (c, r2) := h
          cases hout : sa_outer B expFn (v0 :: vs) 1000 1000
              { current := cc, current_score := (calculate_candidate_score B cc r1).1
                best := cc, best_score := (calculate_candidate_score B cc r1).1 }
              (calculate_candidate_score B cc r1).2 with
          | error e => rw [hout] at h; exact Except.noConfusion h
          | ok q =>
            rw [hout] at h
            obtain ⟨stq, rq⟩ := q
            obtain ⟨_, hbq⟩ := sa_outer_mem B expFn (v0 :: vs) 1000 1000 _ _ stq rq hout hcc hcc
            obtain ⟨rfl, rfl⟩ := Prod.mk.inj (Except.ok.inj h)
            exact hsub _ hbq

/-- The keep-order `min` scan stays inside its list. -/
theorem pyMinOptAux_mem {α : Type} (key : α → Option ℚ) :
    ∀ (l : List α) (best x : α), pyMinOptAux key best l = .ok x → x = best ∨ x ∈ l := by
  intro l
  induction l with
  | nil => intro best x h; exact Or.inl (Except.ok.inj h).symm
  | cons y ys ih =>
    intro best x h
    simp only [pyMinOptAux] at h
    cases hlt : optLt (key y) (key best) with
    | error e => rw [hlt] at h; exact Except.noConfusion h
    | ok b =>
      rw [hlt] at h
      rcases ih _ x h with h2 | h2
      · by_cases hb : b = true
        · rw [hb, if_pos rfl] at h2
          right; rw [h2]; exact List.mem_cons_self y ys
        · rw [if_neg hb] at h2
          exact Or.inl h2
      · right; exact List.mem_cons_of_mem y h2

/-- Python `min` returns a member. -/
theorem pyMinOpt_mem {α : Type} (key : α → Option ℚ) (l : List α) (x : α)
    (h : pyMinOpt key l = .ok x) : x ∈ l := by
  cases l with
  | nil => exact Except.noConfusion h
  | cons a as =>
    rcases pyMinOptAux_mem key as a x h with h2 | h2
    · rw [h2]; exact List.mem_cons_self a as
    · exact List.mem_cons_of_mem a h2

/-- `_select_best_candidate` returns one of its candidates. -/
theorem select_best_candidate_mem (B : PlanBuilder σ ρ) (expFn : ℚ → ℚ)
    (cands : List (WellPlanContext ℚ)) (ko : Bool) (r : Rand)
    (c : WellPlanContext ℚ) (r2 : Rand)
    (h : select_best_candidate B expFn cands ko r = .ok (c, r2)) : c ∈ cands := by
  unfold select_best_candidate at h
  split at h
  · cases hm : pyMinOpt (fun c2 => c2.well.init_entry_date) cands with
    | error e => rw [hm] at h; exact Except.noConfusion h
    | ok c0 =>
      rw [hm] at h
      have hc0 : c0 = c := congrArg Prod.fst (Except.ok.inj h)
      rw [← hc0]
      exact pyMinOpt_mem _ cands c0 hm
  · split at h
    · exact Except.noConfusion h
    · exact sa_selection_mem B expFn cands r c r2 h

/-- Each stored earliest-per-cluster candidate comes from the accumulator or
the inserted candidate. -/
theorem updateEarliest_snd_mem (acc : List (String × WellPlanContext ℚ))
    (c : WellPlanContext ℚ) :
    ∀ p ∈ updateEarliest acc c, p.2 ∈ acc.map Prod.snd ∨ p.2 = c := by
  intro p hp
  simp only [updateEarliest] at hp
  cases hlk : List.lookup c.well.cluster acc with
  | none =>
    rw [hlk] at hp
    rcases List.mem_append.mp hp with h1 | h2
    · exact Or.inl (List.mem_map_of_mem Prod.snd h1)
    · rcases List.mem_singleton.mp h2 with rfl
      exact Or.inr rfl
  | some existing =>
    rw [hlk] at hp
    replace hp : p ∈ (if existing.well.init_entry_date.getD datetime_min >
        c.well.init_entry_date.getD datetime_min then
        acc.map (fun q => if q.1 = c.well.cluster then (c.well.cluster, c) else q)
      else acc) := hp
    by_cases hgt : existing.well.init_entry_date.getD datetime_min >
        c.well.init_entry_date.getD datetime_min
    · rw [if_pos hgt] at hp
      obtain ⟨q, hq, hqe⟩ := List.mem_map.mp hp
      by_cases hcl : q.1 = c.well.cluster
      · rw [if_pos hcl] at hqe
        rw [← hqe]
        exact Or.inr rfl
      · rw [if_neg hcl] at hqe
        rw [← hqe]
        exact Or.inl (List.mem_map_of_mem Prod.snd hq)
    · rw [if_neg hgt] at hp
      exact Or.inl (List.mem_map_of_mem Prod.snd hp)

/-- The cluster-ordering pass keeps a subset of the candidates. -/
theorem cluster_ordered_filter_subset (cs : List (WellPlanContext ℚ)) :
    ∀ x ∈ cluster_ordered_filter cs, x ∈ cs := by
  unfold cluster_ordered_filter
  suffices h : ∀ (ws : List (WellPlanContext ℚ)) (acc : List (String × WellPlanContext ℚ)),
      (∀ p ∈ acc, p.2 ∈ cs) → (∀ w ∈ ws, w ∈ cs) →
      ∀ p ∈ ws.foldl updateEarliest acc, p.2 ∈ cs by
    intro x hx
    obtain ⟨p, hp, hpe⟩ := List.mem_map.mp hx
    rw [← hpe]
    exact h cs [] (by simp) (fun a ha => ha) p hp
  intro ws
  induction ws with
  | nil => exact fun acc hacc _ p hp => hacc p hp
  | cons w ws ih =>
    intro acc hacc hsub p hp
    refine ih (updateEarliest acc w) ?_ (fun a ha => hsub a (List.mem_cons_of_mem w ha)) p hp
    intro q hq
    rcases updateEarliest_snd_mem acc w q hq with h1 | h2
    · obtain ⟨a, ha, hae⟩ := List.mem_map.mp h1
      rw [← hae]
      exact hacc a ha
    · rw [h2]
      exact hsub w (List.mem_cons_self w ws)

/-- Every filtered candidate carries the well of some built candidate. -/
theorem filter_candidates_well_mem (B : PlanBuilder σ ρ) (R : Option (RiskModel ρ))
    (rs : ρ) (cands : List (WellPlanContext ℚ)) (plan : Plan ℚ) (co : Bool) :
    ∀ c ∈ filter_candidates B R rs cands plan co, ∃ c0 ∈ cands, c.well = c0.well := by
  intro c hc
  simp only [filter_candidates] at hc
  have hc2 := List.mem_of_mem_filter hc
  obtain ⟨c3, hc3, hce⟩ := List.mem_map.mp hc2
  have hsub1 : ∀ z, z ∈ (if co && !cands.isEmpty then cluster_ordered_filter cands
      else cands) → z ∈ cands := by
    intro z hz
    split at hz
    · exact cluster_ordered_filter_subset cands z hz
    · exact hz
  cases R with
  | none =>
    refine ⟨c3, hsub1 c3 hc3, ?_⟩
    rw [← hce]
    rfl
  | some risk =>
    obtain ⟨c4, hc4, hc4e⟩ := List.mem_map.mp hc3
    refine ⟨c4, hsub1 c4 hc4, ?_⟩
    rw [← hce, ← hc4e]
    rfl

/-- A successfully built context records a finished dependency cluster. -/
theorem build_context_some_finished (B : PlanBuilder σ ρ) (mm : ManagerModel σ)
    (remaining : List Well) (mgr : σ) (well : Well) (start : ℚ)
    (ctx : WellPlanContext ℚ) (mgr2 : σ)
    (h : build_context B mm remaining mgr well start = (some ctx, mgr2)) :
    is_cluster_finished remaining ctx.well.depend_from_cluster = true := by
  cases hval : is_cluster_finished remaining well.depend_from_cluster with
  | false =>
    simp only [build_context, if_pos hval] at h
    exact absurd (congrArg Prod.fst h) (by simp)
  | true =>
    have hwell : ctx.well = well := by
      simp only [build_context] at h
      rw [if_neg (by rw [hval]; exact fun hff => Bool.noConfusion hff)] at h
      split at h
      · exact absurd (congrArg Prod.fst h) (by simp)
      · have h2 := Option.some.inj (congrArg Prod.fst h)
        rw [← h2]
    rw [hwell]
    exact hval

/-- Every built context records a finished dependency cluster. -/
theorem build_contexts_finished (B : PlanBuilder σ ρ) (mm : ManagerModel σ)
    (remaining : List Well) (mgr : σ) (start : ℚ) :
    ∀ c ∈ (build_contexts B mm remaining mgr start).1,
      is_cluster_finished remaining c.well.depend_from_cluster = true := by
  unfold build_contexts
  suffices h : ∀ (ws : List Well) (acc : List (WellPlanContext ℚ) × σ),
      (∀ c ∈ acc.1, is_cluster_finished remaining c.well.depend_from_cluster = true) →
      ∀ c ∈ (ws.foldl (build_contexts_step B mm remaining start) acc).1,
        is_cluster_finished remaining c.well.depend_from_cluster = true by
    exact h remaining ([], mgr) (by simp)
  intro ws
  induction ws with
  | nil => exact fun acc hacc c hc => hacc c hc
  | cons w ws ih =>
    intro acc hacc c hc
    refine ih (build_contexts_step B mm remaining start acc w) ?_ c hc
    intro q hq
    simp only [build_contexts_step] at hq
    cases hres : build_context B mm remaining acc.2 w start with
    | mk o m2 =>
      rw [hres] at hq
      cases o with
      | none => exact hacc q hq
      | some ctx =>
        rcases List.mem_append.mp hq with h1 | h2
        · exact hacc q h1
        · rcases List.mem_singleton.mp h2 with rfl
          exact build_context_some_finished B mm remaining acc.2 w start q m2 hres

/-- `list.remove` keeps a subset. -/
theorem removeFirstWell_subset : ∀ (l : List Well) (x w : Well),
    w ∈ removeFirstWell l x → w ∈ l := by
  intro l
  induction l with
  | nil => intro x w h; cases h
  | cons a as ih =>
    intro x w h
    simp only [removeFirstWell] at h
    split at h
    · exact List.mem_cons_of_mem a h
    · rcases List.mem_cons.mp h with rfl | h2
      · exact List.mem_cons_self w as
      · exact List.mem_cons_of_mem a (ih x w h2)

/-- `_is_cluster_finished` decides exactly the absence of the cluster from
the remaining pool. -/
theorem is_cluster_finished_iff (remaining : List Well) (C : String) :
    is_cluster_finished remaining (some C) = true ↔ ∀ w ∈ remaining, w.cluster ≠ C := by
  unfold is_cluster_finished
  exact decide_eq_true_iff

/-- The compile loop preserves the cluster-precedence invariant. -/
theorem compile_loop_preserves_cluster_prec (B : PlanBuilder σ ρ) (mm : ManagerModel σ)
    (R : Option (RiskModel ρ)) (ko co : Bool) (expFn : ℚ → ℚ) :
    ∀ (fuel : ℕ) (s s2 : CompileState σ ρ),
      ClusterPrecedenceInv s →
      compile_loop B mm R ko co expFn fuel s = .ok s2 →
      ClusterPrecedenceInv s2 := by
  intro fuel
  induction fuel with
  | zero =>
    intro s s2 hInv h
    rw [← Except.ok.inj h]
    exact hInv
  | succ n ih =>
    intro s s2 hInv h
    by_cases hcond : s.remaining ≠ [] ∧ s.current_start < B.end_
    case neg =>
      simp only [compile_loop, if_neg hcond] at h
      rw [← Except.ok.inj h]
      exact hInv
    case pos =>
      simp only [compile_loop, if_pos hcond] at h
      cases hb : (build_contexts B mm s.remaining s.mgr s.current_start).1.isEmpty
      case true =>
        rw [hb] at h
        simp only [if_true] at h
        rw [← Except.ok.inj h]
        exact hInv
      case false =>
        rw [hb] at h
        simp only [Bool.false_eq_true, if_false] at h
        cases hf : (filter_candidates B R s.risk_state
            (build_contexts B mm s.remaining s.mgr s.current_start).1 s.plan co).isEmpty
        case true =>
          rw [hf] at h
          simp only [if_true] at h
          refine ih _ s2 ?_ h
          exact hInv
        case false =>
          rw [hf] at h
          simp only [Bool.false_eq_true, if_false] at h
          cases hsel : select_best_candidate B expFn
              (filter_candidates B R s.risk_state
                (build_contexts B mm s.remaining s.mgr s.current_start).1 s.plan co)
              ko s.rand with
          | error e => rw [hsel] at h; exact Except.noConfusion h
          | ok p =>
            rw [hsel] at h
            obtain ⟨best, r2⟩ := p
            refine ih _ s2 ?_ h
            intro ctx hctx C hdep w hw
            have hw2 : w ∈ s.remaining := removeFirstWell_subset _ _ _ hw
            rcases List.mem_append.mp hctx with hold | hnew
            · exact hInv ctx hold C hdep w hw2
            · have hbw : ctx.well = best.well := by
                rcases List.mem_singleton.mp hnew with rfl
                cases R with
                | none => rfl
                | some risk => rfl
              have hmem := select_best_candidate_mem B expFn _ ko s.rand best r2 hsel
              obtain ⟨c0, hc0, hwell⟩ := filter_candidates_well_mem B R s.risk_state _
                s.plan co best hmem
              have hfin := build_contexts_finished B mm s.remaining s.mgr
                s.current_start c0 hc0
              rw [hbw, hwell] at hdep
              rw [hdep] at hfin
              exact (is_cluster_finished_iff s.remaining C).mp hfin w hw2

/-- C1.  A context is only built once its well's dependency cluster has no
remaining well (`_build_context` requires `_is_cluster_finished`), and the
compile loop preserves the cluster-precedence invariant: at every state of
every run, no planned well's dependency cluster has wells left in the pool
— in particular a well is never appended while its dependency cluster still
has remaining wells. -/
theorem cluster_precedence :
    (∀ (σ ρ : Type) (B : PlanBuilder σ ρ) (mm : ManagerModel σ) (remaining : List Well)
        (mgr : σ) (well : Well) (start : ℚ) (ctx : WellPlanContext ℚ) (mgr2 : σ),
        build_context B mm remaining mgr well start = (some ctx, mgr2) →
        is_cluster_finished remaining ctx.well.depend_from_cluster = true)
  ∧ (∀ (σ ρ : Type) (B : PlanBuilder σ ρ) (mm : ManagerModel σ)
        (R : Option (RiskModel ρ)) (ko co : Bool) (expFn : ℚ → ℚ) (fuel : ℕ)
        (s s2 : CompileState σ ρ),
        ClusterPrecedenceInv s →
        compile_loop B mm R ko co expFn fuel s = .ok s2 →
        ClusterPrecedenceInv s2) := by
  constructor
  · intro σ ρ B mm remaining mgr well start ctx mgr2 h
    exact build_context_some_finished B mm remaining mgr well start ctx mgr2 h
  · intro σ ρ B mm R ko co expFn fuel s s2 hInv h
    exact compile_loop_preserves_cluster_prec B mm R ko co expFn fuel s s2 hInv h

/-- C1 witness: a concrete one-well run preserves the invariant. -/
theorem cluster_precedence_witness :
    ∃ s2, compile_loop exBuilder exMM none true true (fun _ => 0) 3
        ⟨[exampleWell], ⟨0, []⟩, 0, (), (), exRand⟩ = .ok s2 ∧ ClusterPrecedenceInv s2 := by
  have hInv : ClusterPrecedenceInv
      (⟨[exampleWell], ⟨0, []⟩, 0, (), (), exRand⟩ : CompileState Unit Unit) := by
    intro ctx hctx C hdep w hw
    cases hctx
  exact ⟨_, rfl, cluster_precedence.2 Unit Unit exBuilder exMM none true true
    (fun _ => 0) 3 _ _ hInv rfl⟩

/-! ### C3: empty-candidate handling -/

/-- C3 counterexample: with a manager yielding no entries, the build phase
produces zero candidates and the loop ends at once — remaining wells and
`current_start < end` notwithstanding, and without advancing
`current_start` (the claim says the builder would advance and retry, ending
only when the pool empties or the clock reaches the end). -/
theorem empty_candidate_backoff_counterexample :
    (compile_loop exBuilder exMM none true true (fun _ => 0) 5
        ⟨[exampleWell], ⟨0, []⟩, 0, (), (), exRand⟩).toOption.map
      (fun s => (s.remaining, s.current_start)) = some ([exampleWell], 0) ∧
    ([exampleWell] : List Well) ≠ [] ∧ (0 : ℚ) < exBuilder.end_ := by
  refine ⟨rfl, by simp, by norm_num [exBuilder]⟩

/-- C3 (amended).  The loop returns the state normally whenever the pool is
empty or the clock reached the plan end, and also when the build phase
yields zero candidates; only when a non-empty built-candidate list is
emptied by filtering does it advance `current_start` to January 1 of the
next constraint-boundary year (or of the next year) and retry. -/
theorem empty_candidate_backoff_spec :
    (∀ (σ ρ : Type) (B : PlanBuilder σ ρ) (mm : ManagerModel σ) (R : Option (RiskModel ρ))
        (ko co : Bool) (expFn : ℚ → ℚ) (fuel : ℕ) (s : CompileState σ ρ),
        ¬(s.remaining ≠ [] ∧ s.current_start < B.end_) →
        compile_loop B mm R ko co expFn (fuel + 1) s = .ok s)
  ∧ (∀ (σ ρ : Type) (B : PlanBuilder σ ρ) (mm : ManagerModel σ) (R : Option (RiskModel ρ))
        (ko co : Bool) (expFn : ℚ → ℚ) (fuel : ℕ) (s : CompileState σ ρ),
        s.remaining ≠ [] → s.current_start < B.end_ →
        (build_contexts B mm s.remaining s.mgr s.current_start).1 = [] →
        compile_loop B mm R ko co expFn (fuel + 1) s =
          .ok { s with mgr := (build_contexts B mm s.remaining s.mgr s.current_start).2 })
  ∧ (∀ (σ ρ : Type) (B : PlanBuilder σ ρ) (mm : ManagerModel σ) (R : Option (RiskModel ρ))
        (ko co : Bool) (expFn : ℚ → ℚ) (fuel : ℕ) (s : CompileState σ ρ),
        s.remaining ≠ [] → s.current_start < B.end_ →
        (build_contexts B mm s.remaining s.mgr s.current_start).1 ≠ [] →
        filter_candidates B R s.risk_state
          (build_contexts B mm s.remaining s.mgr s.current_start).1 s.plan co = [] →
        compile_loop B mm R ko co expFn (fuel + 1) s =
          compile_loop B mm R ko co expFn fuel
            { s with
              current_start := jan1 ((B.constraints.get_period_end
                (yearOf s.current_start)).getD (yearOf s.current_start + 1))
              mgr := (build_contexts B mm s.remaining s.mgr s.current_start).2 }) := by
  refine ⟨fun σ ρ B mm R ko co expFn fuel s h => ?_,
    fun σ ρ B mm R ko co expFn fuel s h1 h2 h3 => ?_,
    fun σ ρ B mm R ko co expFn fuel s h1 h2 h3 h4 => ?_⟩
  · simp only [compile_loop, if_neg h]
  · simp only [compile_loop, if_pos (And.intro h1 h2), h3, List.isEmpty_nil, if_true]
  · have hempty : (build_contexts B mm s.remaining s.mgr s.current_start).1.isEmpty = false := by
      cases hcase : (build_contexts B mm s.remaining s.mgr s.current_start).1 with
      | nil => exact absurd hcase h3
      | cons a as => rfl
    have hfilt : (filter_candidates B R s.risk_state
        (build_contexts B mm s.remaining s.mgr s.current_start).1 s.plan co).isEmpty = true := by
      rw [h4]; rfl
    simp only [compile_loop, if_pos (And.intro h1 h2), hempty, Bool.false_eq_true,
      if_false, hfilt, if_true]

/-- C3 witness: with an always-violated constraint, one loop iteration jumps
`current_start` to January 1 of the next year and retries. -/
theorem empty_candidate_backoff_witness :
    compile_loop exBuilderViol exMM2 none true true (fun _ => 0) (4 + 1)
        ⟨[exampleWell], ⟨0, []⟩, 0, (), (), exRand⟩ =
      compile_loop exBuilderViol exMM2 none true true (fun _ => 0) 4
        { remaining := [exampleWell], plan := ⟨0, []⟩
          current_start := jan1 ((exBuilderViol.constraints.get_period_end
            (yearOf (0 : ℚ))).getD (yearOf (0 : ℚ) + 1))
          mgr := (build_contexts exBuilderViol exMM2 [exampleWell] () (0 : ℚ)).2
          risk_state := (), rand := exRand } := by
  have hbuild : (build_contexts exBuilderViol exMM2 [exampleWell] () (0 : ℚ)).1 ≠ [] := by
    intro hc
    have hlen : (build_contexts exBuilderViol exMM2 [exampleWell] () (0 : ℚ)).1.length = 1 := rfl
    rw [hc] at hlen
    exact absurd hlen (by norm_num)
  exact empty_candidate_backoff_spec.2.2 Unit Unit exBuilderViol exMM2 none true true
    (fun _ => 0) 4 ⟨[exampleWell], ⟨0, []⟩, 0, (), (), exRand⟩
    (by simp) (by norm_num [exBuilderViol, exBuilder]) hbuild rfl

/-! ### C9: keep-order determinism -/

/-- C9.  With `keep_order=True` and no risk strategy, the compile loop's
outcome (remaining pool, plan, clock, manager and risk states — everything
but the untouched random cursor) is identical for any two random streams:
keep-order selection never consults the random source. -/
theorem keep_order_deterministic (B : PlanBuilder σ ρ) (mm : ManagerModel σ)
    (cluster_ordered : Bool) (expFn : ℚ → ℚ) (fuel : ℕ) :
    ∀ (rem : List Well) (plan : Plan ℚ) (cs : ℚ) (mgr : σ) (rk : ρ) (r1 r2 : Rand),
      (compile_loop B mm none true cluster_ordered expFn fuel
          ⟨rem, plan, cs, mgr, rk, r1⟩).map stripRand =
        (compile_loop B mm none true cluster_ordered expFn fuel
          ⟨rem, plan, cs, mgr, rk, r2⟩).map stripRand := by
  induction fuel with
  | zero => intro rem plan cs mgr rk r1 r2; rfl
  | succ n ih =>
    intro rem plan cs mgr rk r1 r2
    by_cases hcond : rem ≠ [] ∧ cs < B.end_
    · simp only [compile_loop, if_pos hcond]
      cases hb : (build_contexts B mm rem mgr cs).1.isEmpty
      · simp only [hb, Bool.false_eq_true, if_false]
        cases hf : (filter_candidates B none rk (build_contexts B mm rem mgr cs).1 plan
            cluster_ordered).isEmpty
        · simp only [hf, Bool.false_eq_true, if_false]
          cases hsel : pyMinOpt (fun c => c.well.init_entry_date)
              (filter_candidates B none rk (build_contexts B mm rem mgr cs).1 plan
                cluster_ordered) with
          | error e =>
            simp only [select_best_candidate, if_pos rfl, hsel]
            rfl
          | ok c =>
            simp only [select_best_candidate, if_pos rfl, hsel]
            exact ih _ _ _ _ _ r1 r2
        · simp only [hf, if_true]
          exact ih _ _ _ _ _ r1 r2
      · simp only [hb, if_true]
        rfl
    · simp only [compile_loop, if_neg hcond]
      rfl

/-! ### C4: optimizer mutations on the frozen `ScheduleEntry` -/

/-- C4 evaluation.  On a plan with one scheduled entry, drawing the
`shift_well` mutation (draw ≡ 1 mod 3) or the `reassign_team` mutation
(draw ≡ 2 mod 3) makes `_get_neighbor` raise: `ScheduleEntry` is frozen, so
the `entry.start += …` / `entry.team = …` assignments fail instead of
perturbing the copy. -/
theorem sa_neighbor_frozen_raises :
    sa_get_neighbor ⟨0, [exCtx1]⟩ exManager ⟨fun _ => 1, 0⟩ =
      .error .frozenInstanceError ∧
    sa_get_neighbor ⟨0, [exCtx1]⟩ exManager ⟨fun _ => 2, 0⟩ =
      .error .frozenInstanceError :=
  ⟨rfl, rfl⟩

/-! ### C6: NPV postcondition -/

/-- Summing an enumerated map equals an index-ranged sum. -/
theorem sum_enumFrom_map (g : ℕ → ℝ → ℝ) :
    ∀ (l : List ℝ) (n : ℕ),
      ((l.enumFrom n).map (fun p => g p.1 p.2)).sum =
        ∑ i ∈ Finset.range l.length, g (n + i) (l.getD i 0) := by
  intro l
  induction l with
  | nil => intro n; simp
  | cons a l ih =>
    intro n
    simp only [List.enumFrom, List.map_cons, List.sum_cons, List.length_cons]
    rw [Finset.sum_range_succ', ih (n + 1)]
    have harg : ∀ i : ℕ, g (n + 1 + i) (l.getD i 0) = g (n + (i + 1)) ((a :: l).getD (i + 1) 0) := by
      intro i
      rw [List.getD_cons_succ, Nat.add_assoc, Nat.add_comm 1 i]
    simp only [harg]
    rw [add_comm, Nat.add_zero, List.getD_cons_zero]

/-- The enumerated discounting of `NPV.compute`, as a ranged sum. -/
theorem sum_enum_map (g : ℕ → ℝ → ℝ) (l : List ℝ) :
    ((l.enum).map (fun p => g p.1 p.2)).sum =
      ∑ i ∈ Finset.range l.length, g i (l.getD i 0) := by
  have h := sum_enumFrom_map g l 0
  simpa using h

/-- C6.  `NPV.compute` sets the cost to the discounted monthly cash flows
(`oil · price − opex`, exponent `shift_years + month/12`) minus the
discounted capex (exponent `shift_years`) minus the drilling entry's travel
cost (0 without a drilling entry), and records `travel_cost`, `cash_flow`,
`capex` and `drill_team_penalty` in the metadata. -/
theorem npv_compute_spec (npv : NPV) (ctx : WellPlanContext ℝ)
    (halign : ctx.liq_prod_profile.length = ctx.oil_prod_profile.length)
    (hlen : (npv.opex_cost ctx.oil_prod_profile (List.zipWith (fun liq oil => liq - oil)
      ctx.liq_prod_profile ctx.oil_prod_profile)).length = ctx.oil_prod_profile.length) :
    ∃ dcf dc tc dtp : ℝ,
      (npv.compute ctx).cost = some (dcf - dc - tc) ∧
      dcf = ∑ i ∈ Finset.range ctx.oil_prod_profile.length,
        npv.discount (ctx.oil_prod_profile.getD i 0 * npv.oil_price_per_tone -
          (npv.opex_cost ctx.oil_prod_profile (List.zipWith (fun liq oil => liq - oil)
            ctx.liq_prod_profile ctx.oil_prod_profile)).getD i 0)
          (((⌊ctx.get_next_available_date - npv.project_start_date⌋ : ℤ) : ℝ) / 365 +
            (i : ℝ) / 12) ∧
      dc = npv.discount (npv.capex_cost ctx.well)
        (((⌊ctx.get_next_available_date - npv.project_start_date⌋ : ℤ) : ℝ) / 365) ∧
      tc = (match ctx.get_entry_by_task Task.DRILLING with
        | some e => ((⌊e.travel_time⌋ : ℤ) : ℝ) * npv.travel_cost_per_day
        | none => 0) ∧
      dtp = ((ctx.metadata "team_count_drilling").getD 0) * tc ∧
      (npv.compute ctx).metadata "travel_cost" = some tc ∧
      (npv.compute ctx).metadata "cash_flow" = some dcf ∧
      (npv.compute ctx).metadata "capex" = some dc ∧
      (npv.compute ctx).metadata "drill_team_penalty" = some dtp := by
  refine ⟨_, _, _, _, rfl, ?_, rfl, rfl, rfl, rfl, rfl, rfl, rfl⟩
  rw [sum_enum_map (fun i x => npv.discount x
    (((⌊ctx.get_next_available_date - npv.project_start_date⌋ : ℤ) : ℝ) / 365 + (i : ℝ) / 12))]
  have hlenz : (List.zipWith (fun oil opex => oil * npv.oil_price_per_tone - opex)
      ctx.oil_prod_profile (npv.opex_cost ctx.oil_prod_profile
        (List.zipWith (fun liq oil => liq - oil) ctx.liq_prod_profile
          ctx.oil_prod_profile))).length = ctx.oil_prod_profile.length := by
    rw [List.length_zipWith, hlen, min_self]
  rw [hlenz]
  refine Finset.sum_congr rfl ?_
  intro i hi
  have hi2 : i < ctx.oil_prod_profile.length := Finset.mem_range.mp hi
  have hi3 : i < (List.zipWith (fun oil opex => oil * npv.oil_price_per_tone - opex)
      ctx.oil_prod_profile (npv.opex_cost ctx.oil_prod_profile
        (List.zipWith (fun liq oil => liq - oil) ctx.liq_prod_profile
          ctx.oil_prod_profile))).length := by rw [hlenz]; exact hi2
  have hi4 : i < (npv.opex_cost ctx.oil_prod_profile
      (List.zipWith (fun liq oil => liq - oil) ctx.liq_prod_profile
        ctx.oil_prod_profile)).length := by rw [hlen]; exact hi2
  rw [List.getD_eq_getElem?_getD, List.getElem?_eq_getElem hi3, Option.getD_some,
    List.getElem_zipWith]
  rw [List.getD_eq_getElem?_getD (ctx.oil_prod_profile), List.getElem?_eq_getElem hi2,
    Option.getD_some]
  rw [List.getD_eq_getElem?_getD, List.getElem?_eq_getElem hi4, Option.getD_some]

/-- C6 witness: empty profiles, zero shift — cost is
`0 − capex/(1+rate)^0 − 3·2 = −11`. -/
theorem npv_compute_witness : (exNPV.compute exNPVCtx).cost = some (-11 : ℝ) := by
  obtain ⟨dcf, dc, tc, dtp, hcost, hdcf, hdc, htc, _, _, _, _, _⟩ :=
    npv_compute_spec exNPV exNPVCtx rfl rfl
  rw [hcost, hdcf, hdc, htc]
  have hshift : ((⌊exNPVCtx.get_next_available_date - exNPV.project_start_date⌋ : ℤ) : ℝ) / 365
      = 0 := by
    norm_num [exNPVCtx, exNPV, WellPlanContext.get_next_available_date]
  have hdrill : exNPVCtx.get_entry_by_task Task.DRILLING =
      some ⟨Task.DRILLING, exTeam1, 0, 0, 3⟩ := rfl
  rw [hdrill, hshift]
  norm_num [exNPVCtx, exNPV, NPV.discount, Real.rpow_zero]

end WellPlan
